import Mathlib

/-!
Verification development for the LexicMap seed store and query pipeline.

The Lean definitions below are shallow embeddings of the Go sources:
* `kv/kv-searcher.go` (the prefix-range searcher over the k-mer-value file),
* the index builder (`buildAnIndex`, location packing) and `parseKmerValue`,
* `ClearSubstrPairs`, the single-seed prefilter inside `Index.Search`,
* `chaining2.go` (`Chainer2.Chain`, `chainARegion`, `distance2`, `gap2`),
* `RC` and `rcTable`,
* the coverage filter at the end of `Index.Search`.

Machine integers are modelled as `Nat`/`Int` with explicit `% 2 ^ 64`
(resp. `% 256`) where Go's `uint64`/`uint8` overflow matters.  Go byte
slices are `List Nat`, and a file is the list of its bytes; `Seek(off)`
becomes `List.drop off`.  Functions that in Go return an `error` return
an explicit outcome type.  The stream-vbyte varint pair codec
(`varint-GB.go`) is not part of the given sources (only its test is), so
it is modelled from the specification, as marked below.
-/

set_option maxRecDepth 10000
set_option maxHeartbeats 2000000

namespace LexicMap

/-- 2 ^ 64, the modulus of Go's `uint64` arithmetic. -/
def U64 : Nat := 2 ^ 64

/-! ## Varint pair codec (modelled from the spec, §4.1) -/

/-- Modelled from the spec: the number of little-endian data bytes (1..8)
used for one `uint64` half; `varint-GB.go` is not among the given sources. -/
def byteLen64 (x : Nat) : Nat := max 1 ((Nat.size x + 7) / 8)

/-- Little-endian byte encoding of `x` on `n` bytes. -/
def toLE : Nat → Nat → List Nat
  | 0, _ => []
  | n + 1, x => x % 256 :: toLE n (x / 256)

/-- Little-endian byte decoding. -/
def fromLE : List Nat → Nat
  | [] => 0
  | b :: bs => b + 256 * fromLE bs

/-- Modelled from the spec: the 64-entry table `CtrlByte2ByteLengths` mapping the
low 6 bits of a control byte to the two data-byte lengths (each 1..8). -/
def ctrlByteLens (c : Nat) : Nat × Nat := (c / 8 % 8 + 1, c % 8 + 1)

/-- Modelled from the spec: `PutUint64s` encodes the pair `(x, y)` as a control
byte plus little-endian data bytes. -/
def putUint64s (x y : Nat) : Nat × List Nat :=
  ((byteLen64 x - 1) * 8 + (byteLen64 y - 1), toLE (byteLen64 x) x ++ toLE (byteLen64 y) y)

/-- Modelled from the spec: `Uint64s` decodes a control byte and a data buffer
back into the pair, returning the number of decoded bytes (`0` reports a
length mismatch, which callers turn into `ErrBrokenFile`). -/
def uint64s (ctrl : Nat) (buf : List Nat) : (Nat × Nat) × Nat :=
  let n1 := (ctrlByteLens ctrl).1
  let n2 := (ctrlByteLens ctrl).2
  if buf.length < n1 + n2 then ((0, 0), 0)
  else ((fromLE (buf.take n1), fromLE ((buf.drop n1).take n2)), n1 + n2)

/-! ## Location packing (`buildAnIndex` in the index builder) and
`parseKmerValue` -/

/-- The 64-bit packed seed location written by `buildAnIndex`:
`uint64(batch)<<47 | ((uint64(refIdx) & 131071) << 30) | (uint64(loc) & 1073741823)`. -/
def packKmerValue (batch refIdx loc : Nat) : Nat :=
  (batch <<< 47) % U64 ||| ((refIdx &&& 131071) <<< 30) ||| (loc &&& 1073741823)

/-- `parseKmerValue`: `(v >> 47, v << 17 >> 47, v << 34 >> 35, v & 1)`,
with Go's wrap-around on the left shifts. -/
def parseKmerValue (v : Nat) : Nat × Nat × Nat × Nat :=
  (v >>> 47, ((v <<< 17) % U64) >>> 47, ((v <<< 34) % U64) >>> 35, v &&& 1)

/-! ## Reverse complement (`RC`, `rcTable`) -/

/-- The 256-entry byte table `rcTable` from the searcher source, transcribed
verbatim. -/
def rcTableList : List Nat :=
  [0, 1, 2, 3, 4, 5, 6, 7, 8, 9, 10, 11, 12, 13, 14, 15,
   16, 17, 18, 19, 20, 21, 22, 23, 24, 25, 26, 27, 28, 29, 30, 31,
   32, 33, 34, 35, 36, 37, 38, 39, 40, 41, 42, 43, 44, 45, 46, 47,
   48, 49, 50, 51, 52, 53, 54, 55, 56, 57, 58, 59, 60, 61, 62, 63,
   64, 84, 86, 71, 72, 69, 70, 67, 68, 73, 74, 77, 76, 75, 78, 79,
   80, 81, 89, 83, 65, 85, 66, 87, 88, 82, 90, 91, 92, 93, 94, 95,
   96, 116, 118, 103, 104, 101, 102, 99, 100, 105, 106, 109, 108, 107, 110, 111,
   112, 113, 121, 115, 97, 117, 98, 119, 120, 114, 122, 123, 124, 125, 126, 127,
   128, 129, 130, 131, 132, 133, 134, 135, 136, 137, 138, 139, 140, 141, 142, 143,
   144, 145, 146, 147, 148, 149, 150, 151, 152, 153, 154, 155, 156, 157, 158, 159,
   160, 161, 162, 163, 164, 165, 166, 167, 168, 169, 170, 171, 172, 173, 174, 175,
   176, 177, 178, 179, 180, 181, 182, 183, 184, 185, 186, 187, 188, 189, 190, 191,
   192, 193, 194, 195, 196, 197, 198, 199, 200, 201, 202, 203, 204, 205, 206, 207,
   208, 209, 210, 211, 212, 213, 214, 215, 216, 217, 218, 219, 220, 221, 222, 223,
   224, 225, 226, 227, 228, 229, 230, 231, 232, 233, 234, 235, 236, 237, 238, 239,
   240, 241, 242, 243, 244, 245, 246, 247, 248, 249, 250, 251, 252, 253, 254, 255]

/-- Table lookup, a byte being a natural number below 256. -/
def rcTable (b : Nat) : Nat := rcTableList.getD b 0

/-- `RC` computes the reverse complement: complement every byte through
`rcTable`, then reverse (the Go code mutates in place; this is the same
function of the input). -/
def RC (s : List Nat) : List Nat := (s.map rcTable).reverse

/-! ## The k-mer-value searcher (`kv/kv-searcher.go`) -/

/-- One entry of the searcher's result list (`kv.SearchResult`): the matched
k-mer, the length of the common leading 2-bit-base run with the query
(field `LenPrefix`), and the decoded values. -/
structure KVSearchResult where
  kmer : Nat
  prefLen : Nat
  values : List Nat
deriving Repr, DecidableEq

/-- The searcher state (`kv.Searcher`): k-mer size `k` (field `K`), the
per-mask anchor index arrays (field `Indexes`, interleaved kmer/offset
pairs), and the bytes of the k-mer-value data file. -/
structure KVSearcher where
  k : Nat
  indexes : List (List Nat)
  file : List Nat

/-- `maxKmer` as computed in `NewSearcher`: `1<<(k<<1) - 1` in `uint64`
arithmetic (the shift yields `0` when `2k ≥ 64`, so subtracting one wraps). -/
def goMaxKmer (k : Nat) : Nat :=
  ((if 2 * k < 64 then 2 ^ (2 * k) else 0) + (U64 - 1)) % U64

/-- Outcomes of `Searcher.Search`: a result list, the `invalid kmer` error,
an I/O error from `io.ReadFull`, `ErrBrokenFile`, or an abnormal end
(a Go panic or an infinite loop in the anchor binary search). -/
inductive KVOut where
  | ok (rs : List KVSearchResult)
  | invalidKmer
  | ioErr
  | broken
  | crash
deriving Repr, DecidableEq

/-- `io.ReadFull` on a byte stream: take `n` bytes or fail. -/
def readBytes (n : Nat) (buf : List Nat) : Option (List Nat × List Nat) :=
  if n ≤ buf.length then some (buf.take n, buf.drop n) else none

/-- Big-endian decoding of 8-byte groups (`be.Uint64(buf8)` per value). -/
def beUint64 (l : List Nat) : Nat := l.foldl (fun a b => a * 256 + b) 0

/-- The value-reading loop of `Searcher.Search`
(`for j = 0; j < lenVal; j++ { io.ReadFull(r, buf8) … be.Uint64(buf8) }`):
read `n` big-endian 8-byte words, failing like `io.ReadFull` on short reads. -/
def readVals : Nat → List Nat → Option (List Nat × List Nat)
  | 0, buf => some ([], buf)
  | n + 1, buf =>
    match readBytes 8 buf with
    | none => none
    | some (w, rest) =>
      match readVals n rest with
      | none => none
      | some (vs, rest2) => some (beUint64 w :: vs, rest2)

/-- Number of binary digits of `x` (with enough fuel, i.e. `x < 2 ^ fuel`). -/
def bitLen : Nat → Nat → Nat
  | 0, _ => 0
  | f + 1, x => if x = 0 then 0 else bitLen f (x / 2) + 1

/-- Go's `bits.LeadingZeros64` on a value below `2 ^ 64`. -/
def lz64 (x : Nat) : Nat := 64 - bitLen 64 x

/-- The `LenPrefix` computation of `Searcher.Search`:
`uint8(bits.LeadingZeros64(query^matched)>>1) + k - 32` in `uint8`
arithmetic (`k - 32` wraps modulo 256). -/
def prefLenOf (k q x : Nat) : Nat := (lz64 (q ^^^ x) / 2 + k + 224) % 256

/-- The outcome of parsing one k-mer frame of a mask section: a failure
carrying the outcome `Searcher.Search` would return, or the two flag bits,
the two decoded deltas and the remaining stream. -/
inductive FrameRes where
  | fail (e : KVOut)
  | frame (lastPair hasKmer2 : Bool) (d0 d1 : Nat) (rest : List Nat)
deriving Repr, DecidableEq

/-- The outcome of parsing one value-length frame. -/
inductive LenRes where
  | fail (e : KVOut)
  | lens (lv1 lv2 : Nat) (rest : List Nat)
deriving Repr, DecidableEq

/-- The k-mer frame parsing step of the scan loop of `Searcher.Search`:
read the control byte, extract the flag bits (`ctrlByte&128`, `ctrlByte&64`),
mask with 63, look the data lengths up, read and decode the data bytes
(`nDecoded == 0` is `ErrBrokenFile`). -/
def readKmerFrame (buf : List Nat) : FrameRes :=
  match readBytes 1 buf with
  | none => .fail .ioErr
  | some (cb, b1) =>
    let ctrlByte := cb.headD 0
    let ctrl := ctrlByte &&& 63
    match readBytes ((ctrlByteLens ctrl).1 + (ctrlByteLens ctrl).2) b1 with
    | none => .fail .ioErr
    | some (d, b2) =>
      let dec := uint64s ctrl d
      if dec.2 == 0 then .fail .broken
      else .frame (ctrlByte &&& 128 != 0) (ctrlByte &&& 64 == 0) dec.1.1 dec.1.2 b2

/-- The value-length frame parsing step of the scan loop.  Here the Go code
indexes the 64-entry table with the raw byte, so a byte ≥ 64 is an
out-of-range panic (`.crash`). -/
def readLenFrame (buf : List Nat) : LenRes :=
  match readBytes 1 buf with
  | none => .fail .ioErr
  | some (cb2, b3) =>
    let ctrl2 := cb2.headD 0
    if 64 ≤ ctrl2 then .fail .crash
    else
      match readBytes ((ctrlByteLens ctrl2).1 + (ctrlByteLens ctrl2).2) b3 with
      | none => .fail .ioErr
      | some (d2, b4) =>
        let dec2 := uint64s ctrl2 d2
        if dec2.2 == 0 then .fail .broken
        else .lens dec2.1.1 dec2.1.2 b4

/-- The record-by-record scan of one mask's section in `Searcher.Search`
(the inner `for` loop, from reading the first control byte to the `break`s).
`anchor` is `index[i]`, the k-mer taken from the anchor index for the first
frame; `offs` is the running previous second k-mer (`_offset`); `found` and
`first` are the homonymous flags; `acc` is the shared result list.  The
fuel only bounds the iteration count; every iteration consumes at least six
bytes, so the fuel `buf.length + 1` supplied by `searchMasks` never runs
out before a read fails. -/
def scanMask (k qk lb rb anchor : Nat) :
    Nat → List Nat → Bool → Nat → Bool → List KVSearchResult → KVOut
  | 0, _, _, _, _, _ => .crash
  | fuel + 1, buf, first, offs, found, acc =>
    match readKmerFrame buf with
    | .fail e => e
    | .frame lastPair hasKmer2 d0 d1 b2 =>
      let kmer1 := if first then anchor else (d0 + offs) % U64
      let kmer2 := (kmer1 + d1) % U64
      if rb < kmer1 then .ok acc else
      let found1 := found || decide (lb ≤ kmer1) || decide (lb ≤ kmer2)
      match readLenFrame b2 with
      | .fail e => e
      | .lens lv1 lv2 b4 =>
        match readVals lv1 b4 with
        | none => .ioErr
        | some (vs1, b5) =>
          let acc1 := if found1 && decide (lb ≤ kmer1) then
              acc ++ [⟨kmer1, prefLenOf k qk kmer1, vs1⟩] else acc
          if rb < kmer2 then .ok acc1 else
          if lastPair && !hasKmer2 then .ok acc1 else
          match readVals lv2 b5 with
          | none => .ioErr
          | some (vs2, b6) =>
            let acc2 := if found1 then
                acc1 ++ [⟨kmer2, prefLenOf k qk kmer2, vs2⟩] else acc1
            if lastPair then .ok acc2
            else scanMask k qk lb rb anchor fuel b6 false kmer2 found1 acc2

/-- The anchor-index binary search at the head of the per-mask loop of
`Searcher.Search`.  `begin`/`e` are kept even; the loop `break`s when
`begin+2 == end`.  The Go loop does not terminate for every index shape
(e.g. a two-entry index); the fuel covers every terminating run (the
`begin`..`end` gap shrinks on every iteration of such a run), and `none`
models a hang or an out-of-range index access. -/
def bsearchAnchor (idx : List Nat) (lb : Nat) : Nat → Nat → Nat → Option Nat
  | 0, _, _ => none
  | fuel + 1, begin, e =>
    let mid0 := begin + (e - begin) / 2
    let mid := if mid0 % 2 == 1 then mid0 - 1 else mid0
    if idx.length ≤ mid then none
    else
      let begin2 := if lb < idx.getD mid 0 then begin else mid
      let e2 := if lb < idx.getD mid 0 then mid else e
      if begin2 + 2 == e2 then some begin2
      else bsearchAnchor idx lb fuel begin2 e2

/-- The per-mask loop of `Searcher.Search` (`for _, index := range scr.Indexes`):
binary-search the anchor index, seek to the anchor's offset and scan.
A `none` from the binary search (hang/panic) is `.crash`. -/
def searchMasks (k qk lb rb : Nat) (file : List Nat) :
    List (List Nat) → List KVSearchResult → KVOut
  | [], acc => .ok acc
  | idx :: rest, acc =>
    match bsearchAnchor idx lb (idx.length + 1) 0 (idx.length - 2) with
    | none => .crash
    | some i =>
      let buf := file.drop (idx.getD (i + 1) 0)
      match scanMask k qk lb rb (idx.getD i 0) (buf.length + 1) buf true 0 false acc with
      | .ok acc2 => searchMasks k qk lb rb file rest acc2
      | out => out

/-- The left bound of the search scope of `Searcher.Search`:
`kmer & (math.MaxUint64 - mask)` when `k > m`, else `kmer`. -/
def leftBoundOf (k kmer m1 : Nat) : Nat :=
  if m1 < k then kmer &&& (U64 - 1 - ((1 <<< ((k - m1) <<< 1)) - 1)) else kmer

/-- The right bound of the search scope of `Searcher.Search`:
`kmer>>suffix2<<suffix2 + mask` when `k > m`, else `kmer`. -/
def rightBoundOf (k kmer m1 : Nat) : Nat :=
  if m1 < k then
    (kmer >>> ((k - m1) <<< 1)) <<< ((k - m1) <<< 1) + ((1 <<< ((k - m1) <<< 1)) - 1)
  else kmer

/-- `Searcher.Search(kmer, m)`: reject invalid k-mers, normalise `m` into
`[1, k]`, compute the scope and scan all masks of the chunk. -/
def kvSearch (scr : KVSearcher) (kmer m : Nat) : KVOut :=
  if goMaxKmer scr.k < kmer then .invalidKmer else
  let m1 := if m < 1 || scr.k < m then scr.k else m
  searchMasks scr.k kmer (leftBoundOf scr.k kmer m1) (rightBoundOf scr.k kmer m1)
    scr.file scr.indexes []

/-- Well-formedness of a mask section suffix as the seed-store writer
produces it, phrased over the same parsing steps as `scanMask`: whenever a
full record frame can be parsed, the k-mers it encodes continue a strictly
increasing sequence bounded by `maxK` (so no `uint64` addition wraps), a
missing second k-mer implies the last-pair flag with a zero delta, and the
rest of the stream is well-formed in turn.  Unparseable tails are allowed:
the scan fails on them with an I/O error and returns no results. -/
def wfTail (maxK : Nat) : Nat → Nat → Bool → Nat → List Nat → Bool
  | 0, _, _, _, _ => true
  | fuel + 1, anchor, first, offs, buf =>
    match readKmerFrame buf with
    | .fail _ => true
    | .frame lastPair hasKmer2 d0 d1 b2 =>
      let k1 := if first then anchor else d0 + offs
      decide (k1 + d1 ≤ maxK) &&
      (first || decide (1 ≤ d0)) &&
      (!hasKmer2 || decide (1 ≤ d1)) &&
      (hasKmer2 || (decide (d1 = 0) && lastPair)) &&
      (match readLenFrame b2 with
       | .fail _ => true
       | .lens lv1 lv2 b4 =>
         match readVals lv1 b4 with
         | none => true
         | some (_, b5) =>
           match readVals lv2 b5 with
           | none => true
           | some (_, b6) => lastPair || wfTail maxK fuel anchor false (k1 + d1) b6)

/-- Well-formedness of a whole searcher state: for every mask, whichever
anchor the binary search selects for the given left bound, the file suffix
at that anchor's offset is a well-formed section starting at the anchor's
k-mer. -/
def wfSearcher (scr : KVSearcher) (lb : Nat) : Prop :=
  ∀ idx ∈ scr.indexes, ∀ i,
    bsearchAnchor idx lb (idx.length + 1) 0 (idx.length - 2) = some i →
    wfTail (goMaxKmer scr.k) ((scr.file.drop (idx.getD (i + 1) 0)).length + 1)
      (idx.getD i 0) true 0 (scr.file.drop (idx.getD (i + 1) 0)) = true

/-! ## Anchors (`SubstrPair`) and `ClearSubstrPairs` -/

/-- `SubstrPair`: a matched substring pair (an anchor).  `QBegin`/`TBegin`
are Go `int32`, `Len`/`Mismatch` are `uint8` values. -/
structure SubstrPair where
  qBegin : Int
  tBegin : Int
  len : Nat
  mismatch : Nat
  tRC : Bool
  qRC : Bool
deriving Repr, DecidableEq

instance : Inhabited SubstrPair := ⟨⟨0, 0, 0, 0, false, false⟩⟩

/-- The `sort.Slice` comparator of `ClearSubstrPairs`: ascending `QBegin`,
then descending query end, then ascending `TBegin` (non-strict). -/
def substrLess (a b : SubstrPair) : Bool :=
  if a.qBegin == b.qBegin then
    if a.qBegin + (a.len : Int) == b.qBegin + (b.len : Int) then
      decide (a.tBegin ≤ b.tBegin)
    else decide (b.qBegin + (b.len : Int) < a.qBegin + (a.len : Int))
  else decide (a.qBegin < b.qBegin)

/-- The comparator as a relation, for sorting. -/
def substrLE (a b : SubstrPair) : Prop := substrLess a b = true

/-- The claim's containment notion between anchors: the first anchor's query
interval and its target interval both lie within those of the second
anchor (bounds inclusive, so duplicates contain each other). -/
def nestedRect (u w : SubstrPair) : Prop :=
  w.qBegin ≤ u.qBegin ∧ u.qBegin + (u.len : Int) ≤ w.qBegin + (w.len : Int) ∧
  w.tBegin ≤ u.tBegin ∧ u.tBegin + (u.len : Int) ≤ w.tBegin + (w.len : Int)

instance (u w : SubstrPair) : Decidable (nestedRect u w) := by
  unfold nestedRect; infer_instance

instance : DecidableRel substrLE := fun a b => instDecidableEqBool (substrLess a b) true

/-- The marking condition of `ClearSubstrPairs`: the anchor `v` lies in a
same-or-nested region of the earlier anchor `p`
(`vQEnd <= p.QBegin+Len && v.TBegin >= p.TBegin && vTEnd <= p.TBegin+Len`). -/
def nestedCond (v p : SubstrPair) : Bool :=
  decide (v.qBegin + (v.len : Int) ≤ p.qBegin + (p.len : Int)) &&
  decide (p.tBegin ≤ v.tBegin) &&
  decide (v.tBegin + (v.len : Int) ≤ p.tBegin + (p.len : Int))

/-- The backwards scan (`for j >= 0`) of `ClearSubstrPairs` checking whether
the anchor `v` (at position `j+1` of the sorted list) is nested in one of
the anchors at positions `j`, `j-1`, …; it `break`s as soon as
`p.QBegin < upbound` with `upbound = vQEnd - k`. -/
def markedDown (sorted : List SubstrPair) (kk : Int) (v : SubstrPair) : Nat → Bool
  | 0 =>
    let p := sorted.getD 0 default
    if decide (p.qBegin < v.qBegin + (v.len : Int) - kk) then false
    else nestedCond v p
  | j + 1 =>
    let p := sorted.getD (j + 1) default
    if decide (p.qBegin < v.qBegin + (v.len : Int) - kk) then false
    else if nestedCond v p then true
    else markedDown sorted kk v j

/-- The compaction pass of `ClearSubstrPairs`: keep the anchors whose marker
is `false` (position 0 is never marked; position `t ≥ 1` is marked by the
backwards scan starting at `t - 1`). -/
def filterMarked (sorted : List SubstrPair) (kk : Int) : Nat → List SubstrPair → List SubstrPair
  | _, [] => []
  | t, v :: rest =>
    if t == 0 || !markedDown sorted kk v (t - 1) then
      v :: filterMarked sorted kk (t + 1) rest
    else filterMarked sorted kk (t + 1) rest

/-- `ClearSubstrPairs(subs, k)`: sort, mark nested/duplicate anchors, drop
them.  Lists of fewer than two anchors are returned unchanged.  Go's
unstable `sort.Slice` is modelled by a stable insertion sort (the
comparator is a total preorder, so any correct sort yields a list that is
sorted in the same sense). -/
def clearSubstrPairs (subs : List SubstrPair) (k : Nat) : List SubstrPair :=
  if subs.length < 2 then subs
  else
    let sorted := subs.insertionSort substrLE
    filterMarked sorted (k : Int) 0 sorted

/-! ## The single-seed prefilter of `Index.Search` (step 3.1) -/

/-- `checkMismatch` in `Index.Search`:
`maxMismatch >= 0 && maxMismatch < K-int(idx.opt.MinPrefix)`. -/
def checkMismatchFlag (maxMismatch : Int) (k : Nat) (minPref : Nat) : Bool :=
  decide (0 ≤ maxMismatch) && decide (maxMismatch < (k : Int) - (minPref : Int))

/-- The per-target preprocessing of step 3.1 of `Index.Search`: clean the
anchors, drop targets with exactly one anchor that fails the single-seed
test (mismatch test when `checkMismatch`, else a minimum length test), and
score survivors by the sum of `float64(sub.Len * sub.Len)` — a `uint8`
product, hence the `% 256`. -/
def prefilterTarget (k : Nat) (maxMismatch : Int) (minPref minSingle : Nat)
    (subs0 : List SubstrPair) : Option (List SubstrPair × Nat) :=
  let subs := clearSubstrPairs subs0 k
  if subs.length == 1 &&
      (if checkMismatchFlag maxMismatch k minPref then
        decide (maxMismatch < ((subs.headD default).mismatch : Int))
      else decide ((subs.headD default).len < minSingle)) then
    none
  else
    some (subs, subs.foldl (fun s a => s + a.len * a.len % 256) 0)

/-! ## Chainer2 (`chaining2.go`) -/

/-- `Chaining2Options`. -/
structure Chaining2Options where
  maxGap : Int
  minScore : Int
  maxDistance : Int
  band : Nat
deriving Repr, DecidableEq

/-- `DefaultChaining2Options`. -/
def defaultChaining2Options : Chaining2Options := ⟨32, 20, 50, 20⟩

/-- `Chain2Result` (fields reset to zero when taken fresh from the pool). -/
structure Chain2Result where
  chain : List Nat
  matchedBases : Int
  alignedBases : Int
  qBegin : Int
  qEnd : Int
  tBegin : Int
  tEnd : Int
deriving Repr, DecidableEq

/-- `distance2(a, b) = max(a.QBegin-b.QBegin, a.TBegin-b.TBegin)`. -/
def distance2 (a b : SubstrPair) : Int :=
  let q := a.qBegin - b.qBegin
  let t := a.tBegin - b.tBegin
  if t < q then q else t

/-- `gap2(a, b) = |(a.QBegin-b.QBegin) - (a.TBegin-b.TBegin)|`. -/
def gap2 (a b : SubstrPair) : Int :=
  let g := a.qBegin - b.qBegin - (a.tBegin - b.tBegin)
  if g < 0 then -g else g

/-- The inner band loop of `Chainer2.Chain`: check the previous `band` seeds
(`_b = 1 .. band`, `j = i - _b`, `break` when `j < 0`), skipping crossed
anchors and transitions over the distance/gap limits, and keep the best
`maxscores[j] + b.Len - g` (ties favouring the later `j`, per `s >= m`). -/
def bandLoop (opts : Chaining2Options) (subs : List SubstrPair)
    (maxscores : List Int) (a : SubstrPair) (i : Nat) :
    List Nat → Int × Nat → Int × Nat
  | [], st => st
  | bb :: rest, (m, mj) =>
    if i < bb then (m, mj)
    else
      let j := i - bb
      let b := subs.getD j default
      if decide (a.tBegin < b.tBegin) then bandLoop opts subs maxscores a i rest (m, mj)
      else if decide (opts.maxDistance < distance2 a b) then
        bandLoop opts subs maxscores a i rest (m, mj)
      else if decide (opts.maxGap < gap2 a b) then
        bandLoop opts subs maxscores a i rest (m, mj)
      else
        let s := maxscores.getD j 0 + (b.len : Int) - gap2 a b
        if decide (m ≤ s) then bandLoop opts subs maxscores a i rest (s, j)
        else bandLoop opts subs maxscores a i rest (m, mj)

/-- The result of the score-computation loop of `Chainer2.Chain`. -/
structure DP2Result where
  maxscores : List Int
  idxs : List Nat
  bigM : Int
  bigMi : Nat
deriving Repr, DecidableEq

/-- The main scoring loop of `Chainer2.Chain` (`for i = 1; i < n; i++`),
carrying `maxscores`, `maxscoresIdxs` and the global maximum `M`/`Mi`.
The first argument counts the remaining iterations (`chainer2DP` passes the
list length, which is enough since `i` starts at 1). -/
def dpLoop (opts : Chaining2Options) (subs : List SubstrPair) :
    Nat → Nat → List Int → List Nat → Int → Nat → DP2Result
  | 0, _, ms, idxs, bigM, bigMi => ⟨ms, idxs, bigM, bigMi⟩
  | cnt + 1, i, ms, idxs, bigM, bigMi =>
    if subs.length ≤ i then ⟨ms, idxs, bigM, bigMi⟩
    else
      let a := subs.getD i default
      let mmj := bandLoop opts subs ms a i (List.range' 1 opts.band) ((a.len : Int), i)
      let upd := bigM < mmj.1
      dpLoop opts subs cnt (i + 1) (ms ++ [mmj.1]) (idxs ++ [mmj.2])
        (if upd then mmj.1 else bigM) (if upd then i else bigMi)

/-- The dynamic program of `Chainer2.Chain`: `maxscores[0] = subs[0].Len`,
`maxscoresIdxs[0] = 0`, then the band-limited recurrence; `M`/`Mi` start at
zero and only see `i ≥ 1` (as in the source). -/
def chainer2DP (opts : Chaining2Options) (subs : List SubstrPair) : DP2Result :=
  dpLoop opts subs subs.length 1 [((subs.getD 0 default).len : Int)] [0] 0 0

/-- The bounding-box overlap test of `chainARegion` against the bounds of the
previously emitted chains (groups of four: `qb, qe, tb, te`). -/
def overlapsBounds (bounds : List Int) (sub : SubstrPair) : Bool :=
  (List.range (bounds.length / 4)).any fun bi =>
    let bj := 4 * bi
    !((decide (bounds.getD (bj + 1) 0 < sub.qBegin) &&
       decide (bounds.getD (bj + 3) 0 < sub.tBegin)) ||
      (decide (sub.qBegin + (sub.len : Int) - 1 < bounds.getD bj 0) &&
       decide (sub.tBegin + (sub.len : Int) - 1 < bounds.getD (bj + 2) 0)))

/-- Mutable state threaded through `chainARegion`: the emitted chains, the
total matched/aligned counters and the bounds list. -/
structure CARState where
  paths : List Chain2Result
  nMatched : Int
  nAligned : Int
  bounds : List Int
deriving Repr, DecidableEq

/-- The backtracking loop of `chainARegion` (`for { j := maxscoresIdxs[i] - offset … }`).
Returns the possibly finalised chain, the local matched/aligned counts, the
final `i` and the chain bounds `qb, qe, tb, te`.  The fuel decreases with
`i` in every real run (`j < i` whenever the loop continues); it only guards
against malformed predecessor arrays, on which the Go loop would not
terminate. -/
def backtrack (subs : List SubstrPair) (idxs : List Nat) (offset : Nat) (bounds : List Int) :
    Nat → Nat → List Nat → Int → Int → Int → Int → Int → Int → Bool →
    Option Chain2Result × Int × Int × Nat × Int × Int × Int × Int
  | 0, i, _, qb, qe, tb, te, _, nM, _ => (none, nM, 0, i, qb, qe, tb, te)
  | fuel + 1, i, path, qb, qe, tb, te, beginNext, nM, firstA =>
    let j : Int := (idxs.getD i 0 : Int) - (offset : Int)
    if decide (j < 0) then
      -- the first anchor is not in the current region: emit the partial chain
      if path.isEmpty then (none, nM, 0, i, qb, qe, tb, te)
      else
        (some ⟨path.reverse, nM, qe - qb + 1, qb, qe, tb, te⟩, nM, qe - qb + 1,
          i, qb, qe, tb, te)
    else
      let sub := subs.getD i default
      let ovl := overlapsBounds bounds sub
      let path2 := if ovl then path else path ++ [i + offset]
      let qb2 := if ovl then qb else sub.qBegin
      let tb2 := if ovl then tb else sub.tBegin
      let qe2 := if ovl || !firstA then qe else sub.qBegin + (sub.len : Int) - 1
      let te2 := if ovl || !firstA then te else sub.tBegin + (sub.len : Int) - 1
      let nM2 := if ovl then nM
        else if firstA then nM + (sub.len : Int)
        else if decide (beginNext ≤ sub.qBegin + (sub.len : Int) - 1) then
          nM + (beginNext - sub.qBegin)
        else nM + (sub.len : Int)
      let beginNext2 := if ovl then beginNext else sub.qBegin
      let firstA2 := if ovl then firstA else false
      if decide (j = (i : Int)) then
        if firstA2 then (none, nM2, 0, i, qb2, qe2, tb2, te2)
        else
          (some ⟨path2.reverse, nM2, qe2 - qb2 + 1, qb2, qe2, tb2, te2⟩, nM2,
            qe2 - qb2 + 1, i, qb2, qe2, tb2, te2)
      else
        backtrack subs idxs offset bounds fuel j.toNat path2 qb2 qe2 tb2 te2
          beginNext2 nM2 firstA2

/-- `chainARegion`: find the regional maximum (unless `Mi` is given), quit
below `minScore`, backtrack one chain, record its bounds and recurse into
the regions strictly right and strictly left of it.  Returns the updated
state and `(M, qB, qE, tB, tE)`.  The fuel decreases with the region size
on every recursive call of a real run. -/
def chainARegion (opts : Chaining2Options) :
    Nat → List SubstrPair → List Int → List Nat → Nat → Int → CARState → Option Nat →
    CARState × (Int × Int × Int × Int × Int)
  | 0, _, _, _, _, _, st, _ => (st, (0, -1, -1, -1, -1))
  | fuelR + 1, subs, maxscores, idxs, offset, minScore, st, mi0 =>
    let mM : Int × Nat :=
      match mi0 with
      | some i => (0, i)
      | none =>
        (maxscores.enum.foldl (fun mi xm => if mi.1 < xm.2 then (xm.2, xm.1) else mi)
          ((0 : Int), (0 : Nat)))
    if mi0.isNone && decide (mM.1 < minScore) then (st, (0, -1, -1, -1, -1))
    else
      let bigMi := mM.2
      let bt := backtrack subs idxs offset st.bounds (maxscores.length + 1) bigMi
        [] 0 0 0 0 0 0 true
      let st1 : CARState :=
        { paths := match bt.1 with
            | some c => st.paths ++ [c]
            | none => st.paths
          nMatched := st.nMatched + (match bt.1 with | some _ => bt.2.1 | none => 0)
          nAligned := st.nAligned + (match bt.1 with | some _ => bt.2.2.1 | none => 0)
          bounds := st.bounds ++
            [bt.2.2.2.2.1, bt.2.2.2.2.2.1, bt.2.2.2.2.2.2.1, bt.2.2.2.2.2.2.2] }
      let qb := bt.2.2.2.2.1
      let qe := bt.2.2.2.2.2.1
      let tb := bt.2.2.2.2.2.2.1
      let te := bt.2.2.2.2.2.2.2
      let iFin := bt.2.2.2.1
      -- the unchecked region on the right
      let right :=
        if bigMi ≠ maxscores.length - 1 then
          chainARegion opts fuelR (subs.drop (bigMi + 1)) (maxscores.drop (bigMi + 1))
            (idxs.drop (bigMi + 1)) (offset + bigMi + 1) minScore st1 none
        else (st1, (0, -1, -1, -1, -1))
      let st2 := right.1
      let qB1 := if 0 < right.2.1 then min qb right.2.2.1 else qb
      let qE1 := if 0 < right.2.1 then max qe right.2.2.2.1 else qe
      let tB1 := if 0 < right.2.1 then min tb right.2.2.2.2.1 else tb
      let tE1 := if 0 < right.2.1 then max te right.2.2.2.2.2 else te
      -- the unchecked region on the left
      let left :=
        if 0 < iFin then
          chainARegion opts fuelR (subs.take iFin) (maxscores.take iFin)
            (idxs.take iFin) offset minScore st2 none
        else (st2, (0, -1, -1, -1, -1))
      let qB2 := if 0 < left.2.1 then min qB1 left.2.2.1 else qB1
      let qE2 := if 0 < left.2.1 then max qE1 left.2.2.2.1 else qE1
      let tB2 := if 0 < left.2.1 then min tB1 left.2.2.2.2.1 else tB1
      let tE2 := if 0 < left.2.1 then max tE1 left.2.2.2.2.2 else tE1
      (left.1, (mM.1, qB2, qE2, tB2, tE2))

/-- The seven return values of `Chainer2.Chain`. -/
structure Chain2Out where
  paths : List Chain2Result
  nMatched : Int
  nAligned : Int
  qB : Int
  qE : Int
  tB : Int
  tE : Int
deriving Repr, DecidableEq

/-- `Chainer2.Chain`.  `none` models the Go panic on an empty anchor list
(the scoring loop indexes `(*subs)[0]`).  For a single anchor the seed
weight is checked directly; otherwise the dynamic program runs and chains
are only backtracked when the global maximum reaches 100. -/
def chain2 (opts : Chaining2Options) (subs : List SubstrPair) : Option Chain2Out :=
  if subs.length == 0 then none
  else if subs.length == 1 then
    let sub := subs.getD 0 default
    if decide (opts.minScore ≤ (sub.len : Int)) then
      some ⟨[⟨[0], 0, 0, 0, 0, 0, 0⟩], (sub.len : Int), (sub.len : Int), 0, 0, 0, 0⟩
    else some ⟨[], 0, 0, 0, 0, 0, 0⟩
  else
    let dp := chainer2DP opts subs
    if decide (dp.bigM < 100) then some ⟨[], 0, 0, 0, 0, 0, 0⟩
    else
      let res := chainARegion opts (subs.length + 1) subs dp.maxscores dp.idxs 0
        opts.minScore ⟨[], 0, 0, []⟩ (some dp.bigMi)
      some ⟨res.1.paths, res.1.nMatched, res.1.nAligned,
        res.2.2.1, res.2.2.2.1, res.2.2.2.2.1, res.2.2.2.2.2⟩

/-! ## The coverage filter at the end of `Index.Search` -/

/-- Modelled from the spec: `coverageLen` computes the length of the union
of the query intervals (inclusive integer intervals); its source is not
among the given files. -/
def coverageLen (regions : List (Int × Int)) : Nat :=
  (regions.foldr (fun r acc => Finset.Icc r.1 r.2 ∪ acc) (∅ : Finset Int)).card

/-- The coverage filter of `Index.Search`: gather the query intervals of
every kept fragment of every similarity detail of the target, compute the
aligned fraction, cap it at 100 and drop the target below the threshold.
Go's `float64` arithmetic is modelled with exact rationals. -/
def coverageStage (sds : List (List (Int × Int))) (qlen : Nat) (minAF : ℚ) : Option ℚ :=
  let af : ℚ := ((coverageLen sds.flatten : ℚ) / (qlen : ℚ)) * 100
  let af2 := if 100 < af then 100 else af
  if af2 < minAF then none else some af2

/-! # Theorems -/

/-! ## Varint codec -/

theorem toLE_length (n x : Nat) : (toLE n x).length = n := by
  induction n generalizing x with
  | zero => rfl
  | succ n ih => simp [toLE, ih]

theorem fromLE_toLE (n x : Nat) : fromLE (toLE n x) = x % 2 ^ (8 * n) := by
  induction n generalizing x with
  | zero => simp [toLE, fromLE, Nat.mod_one]
  | succ n ih =>
    have h256 : (2 : Nat) ^ (8 * (n + 1)) = 256 * 2 ^ (8 * n) := by
      rw [show 8 * (n + 1) = 8 + 8 * n by ring, pow_add]; norm_num
    rw [toLE, fromLE, ih, h256, Nat.mod_mul]

theorem byteLen64_pos (x : Nat) : 1 ≤ byteLen64 x := le_max_left _ _

theorem lt_two_pow_byteLen (x : Nat) : x < 2 ^ (8 * byteLen64 x) := by
  have h1 : Nat.size x ≤ 8 * byteLen64 x := by
    have : (Nat.size x + 7) / 8 ≤ byteLen64 x := le_max_right _ _
    omega
  exact lt_of_lt_of_le (Nat.lt_size_self x) (Nat.pow_le_pow_right (by norm_num) h1)

theorem byteLen64_le_eight (x : Nat) (h : x < U64) : byteLen64 x ≤ 8 := by
  have hs : Nat.size x ≤ 64 := Nat.size_le.mpr h
  unfold byteLen64
  omega

/-- C2.  The varint pair codec round-trips: decoding the control byte and the
data bytes produced by `PutUint64s(x, y)` with `Uint64s` yields exactly
`(x, y)` (with a non-zero decoded length) for all `x, y < 2^64`. -/
theorem putUint64s_uint64s_roundtrip (x y : Nat) (hx : x < U64) (hy : y < U64) :
    (uint64s (putUint64s x y).1 (putUint64s x y).2).1 = (x, y) ∧
    (uint64s (putUint64s x y).1 (putUint64s x y).2).2 ≠ 0 := by
  have h1 : 1 ≤ byteLen64 x := byteLen64_pos x
  have h2 : 1 ≤ byteLen64 y := byteLen64_pos y
  have h8x : byteLen64 x ≤ 8 := byteLen64_le_eight x hx
  have h8y : byteLen64 y ≤ 8 := byteLen64_le_eight y hy
  have hc1 : (ctrlByteLens ((byteLen64 x - 1) * 8 + (byteLen64 y - 1))).1 = byteLen64 x := by
    unfold ctrlByteLens; simp only; omega
  have hc2 : (ctrlByteLens ((byteLen64 x - 1) * 8 + (byteLen64 y - 1))).2 = byteLen64 y := by
    unfold ctrlByteLens; simp only; omega
  have hlen : (toLE (byteLen64 x) x ++ toLE (byteLen64 y) y).length =
      byteLen64 x + byteLen64 y := by
    simp [toLE_length]
  have htake : (toLE (byteLen64 x) x ++ toLE (byteLen64 y) y).take (byteLen64 x) =
      toLE (byteLen64 x) x := List.take_left' (toLE_length _ _)
  have hdrop : (toLE (byteLen64 x) x ++ toLE (byteLen64 y) y).drop (byteLen64 x) =
      toLE (byteLen64 y) y := List.drop_left' (toLE_length _ _)
  have hxv : fromLE (toLE (byteLen64 x) x) = x := by
    rw [fromLE_toLE]; exact Nat.mod_eq_of_lt (lt_two_pow_byteLen x)
  have hyv : fromLE (toLE (byteLen64 y) y) = y := by
    rw [fromLE_toLE]; exact Nat.mod_eq_of_lt (lt_two_pow_byteLen y)
  unfold putUint64s uint64s
  simp only [hc1, hc2, hlen, htake, hdrop, Nat.lt_irrefl, if_false]
  constructor
  · simp only [List.take_of_length_le (Nat.le_of_eq (toLE_length _ _)), hxv, hyv]
  · omega

/-- Witness for C2 at a concrete input. -/
theorem putUint64s_uint64s_roundtrip_witness :
    (300 : Nat) < U64 ∧ (7 : Nat) < U64 ∧
    (uint64s (putUint64s 300 7).1 (putUint64s 300 7).2).1 = (300, 7) ∧
    (uint64s (putUint64s 300 7).1 (putUint64s 300 7).2).2 ≠ 0 :=
  ⟨by norm_num [U64], by norm_num [U64],
    putUint64s_uint64s_roundtrip 300 7 (by norm_num [U64]) (by norm_num [U64])⟩

/-! ## Location packing -/

/-- C5.  For in-range fields, the 64-bit packed seed location of
`buildAnIndex` is the arithmetic sum placing the batch in bits 63..47, the
reference index in bits 46..30, the position in bits 29..1 and the strand
in bit 0, and `parseKmerValue` recovers all four fields exactly. -/
theorem pack_parse_kmer_value (batch refIdx pos strand : Nat)
    (hb : batch < 2 ^ 17) (hr : refIdx < 2 ^ 17) (hp : pos < 2 ^ 29) (hs : strand < 2) :
    packKmerValue batch refIdx (pos <<< 1 ||| strand) =
      batch * 2 ^ 47 + refIdx * 2 ^ 30 + pos * 2 + strand ∧
    parseKmerValue (packKmerValue batch refIdx (pos <<< 1 ||| strand)) =
      (batch, refIdx, pos, strand) := by
  norm_num at hb hr hp
  have hL : pos <<< 1 ||| strand = 2 * pos + strand := by
    rw [Nat.shiftLeft_eq, Nat.mul_comm pos (2 ^ 1),
      ← Nat.mul_add_lt_is_or (show strand < 2 ^ 1 by omega) pos]
  have hand1 : refIdx &&& 131071 = refIdx := by
    rw [show (131071 : Nat) = 2 ^ 17 - 1 from by norm_num,
      Nat.and_pow_two_sub_one_eq_mod, Nat.mod_eq_of_lt (by norm_num; omega)]
  have hand2 : (2 * pos + strand) &&& 1073741823 = 2 * pos + strand := by
    rw [show (1073741823 : Nat) = 2 ^ 30 - 1 from by norm_num,
      Nat.and_pow_two_sub_one_eq_mod, Nat.mod_eq_of_lt (by norm_num; omega)]
  have hmod : (batch <<< 47) % U64 = 2 ^ 47 * batch := by
    rw [Nat.shiftLeft_eq, Nat.mul_comm batch (2 ^ 47), U64,
      Nat.mod_eq_of_lt (by norm_num; omega)]
  have hYZ : (refIdx <<< 30) ||| (2 * pos + strand) = 2 ^ 30 * refIdx + (2 * pos + strand) := by
    rw [Nat.shiftLeft_eq, Nat.mul_comm refIdx (2 ^ 30),
      ← Nat.mul_add_lt_is_or (show 2 * pos + strand < 2 ^ 30 by norm_num; omega) refIdx]
  have hpack : packKmerValue batch refIdx (pos <<< 1 ||| strand) =
      batch * 2 ^ 47 + refIdx * 2 ^ 30 + pos * 2 + strand := by
    unfold packKmerValue
    rw [hL, hand1, hand2, hmod, Nat.or_assoc, hYZ,
      ← Nat.mul_add_lt_is_or
        (show 2 ^ 30 * refIdx + (2 * pos + strand) < 2 ^ 47 by norm_num; omega) batch]
    ring
  refine ⟨hpack, ?_⟩
  unfold parseKmerValue
  rw [hpack]
  have h47 : (2 : Nat) ^ 47 = 140737488355328 := by norm_num
  have h30 : (2 : Nat) ^ 30 = 1073741824 := by norm_num
  simp only [Nat.shiftLeft_eq, Nat.shiftRight_eq_div_pow, Nat.and_one_is_mod, U64, h47, h30,
    Prod.mk.injEq]
  norm_num
  constructor
  · omega
  constructor
  · omega
  constructor
  · omega
  omega

/-- Witness for C5 at a concrete input. -/
theorem pack_parse_kmer_value_witness :
    (3 : Nat) < 2 ^ 17 ∧ (5 : Nat) < 2 ^ 17 ∧ (77 : Nat) < 2 ^ 29 ∧ (1 : Nat) < 2 ∧
    packKmerValue 3 5 (77 <<< 1 ||| 1) = 3 * 2 ^ 47 + 5 * 2 ^ 30 + 77 * 2 + 1 ∧
    parseKmerValue (packKmerValue 3 5 (77 <<< 1 ||| 1)) = (3, 5, 77, 1) := by
  refine ⟨by norm_num, by norm_num, by norm_num, by norm_num, ?_⟩
  have h := pack_parse_kmer_value 3 5 77 1 (by norm_num) (by norm_num) (by norm_num)
    (by norm_num)
  exact ⟨h.1, h.2⟩

/-! ## Reverse complement -/

theorem rcTable_involution_all : ∀ b < 256, rcTable (rcTable b) = b := by decide

/-- Counterexample for C8 as stated: the byte `'B' = 66` is not one of
`A, C, G, T, a, c, g, t`, yet `rcTable` does not fix it — it maps it to the
IUPAC complement `'V' = 86`. -/
theorem rcTable_not_identity_cex :
    (66 : Nat) ∉ [65, 67, 71, 84, 97, 99, 103, 116] ∧ rcTable 66 = 86 ∧ (86 : Nat) ≠ 66 := by
  decide

/-- C8 (amended).  `rcTable` is an involution on every byte value (not just
on `ACGTacgt`; it complements the full IUPAC alphabet and fixes the rest),
and consequently `RC` is an involution on byte sequences. -/
theorem rcTable_involutive_RC_RC (b : Nat) (s : List Nat) (hb : b < 256)
    (hs : ∀ x ∈ s, x < 256) : rcTable (rcTable b) = b ∧ RC (RC s) = s := by
  refine ⟨rcTable_involution_all b hb, ?_⟩
  unfold RC
  rw [List.map_reverse, List.reverse_reverse, List.map_map]
  have hmc : List.map (rcTable ∘ rcTable) s = List.map id s :=
    List.map_congr_left (fun a ha => rcTable_involution_all a (hs a ha))
  rw [hmc, List.map_id]

/-- Witness for C8 at a concrete byte and sequence. -/
theorem rcTable_involutive_RC_RC_witness :
    (66 : Nat) < 256 ∧ (∀ x ∈ [65, 66, 78, 116], x < 256) ∧
    rcTable (rcTable 66) = 66 ∧ RC (RC [65, 66, 78, 116]) = [65, 66, 78, 116] :=
  ⟨by decide, by decide,
    rcTable_involutive_RC_RC 66 [65, 66, 78, 116] (by decide) (by decide)⟩

/-! ## Chainer2 -/

/-- Counterexample for C4 as stated: for a single-anchor input the dynamic
program is bypassed entirely, so its global maximum `M` stays `0` (and even
the best per-anchor score is only `50`), both below 100, yet
`Chainer2.Chain` returns one chain with 50 matched and 50 aligned bases
(under the default options, whose `MinScore` is 20). -/
theorem chain2_single_anchor_cex :
    (chainer2DP defaultChaining2Options [⟨0, 0, 50, 0, false, false⟩]).bigM = 0 ∧
    (chainer2DP defaultChaining2Options [⟨0, 0, 50, 0, false, false⟩]).maxscores.foldl max 0
      = 50 ∧
    ((0 : Int) < 100 ∧ (50 : Int) < 100) ∧
    chain2 defaultChaining2Options [⟨0, 0, 50, 0, false, false⟩] =
      some ⟨[⟨[0], 0, 0, 0, 0, 0, 0⟩], 50, 50, 0, 0, 0, 0⟩ := by
  decide

/-- C4 (amended).  For every anchor list with at least two anchors, if the
global maximum `M` of the dynamic-programming scores of `Chainer2.Chain`
is below 100, the call returns no chain: an empty chain list with zero
matched and zero aligned bases (single-anchor lists bypass the DP and this
threshold). -/
theorem chain2_early_exit (opts : Chaining2Options) (subs : List SubstrPair)
    (h2 : 2 ≤ subs.length) (hM : (chainer2DP opts subs).bigM < 100) :
    chain2 opts subs = some ⟨[], 0, 0, 0, 0, 0, 0⟩ := by
  unfold chain2
  rw [show (subs.length == 0) = false from by simp only [beq_eq_false_iff_ne, ne_eq]; omega,
    show (subs.length == 1) = false from by simp only [beq_eq_false_iff_ne, ne_eq]; omega]
  simp only [Bool.false_eq_true, if_false, decide_eq_true_eq]
  rw [if_pos hM]

/-- Witness for C4 at a concrete two-anchor input. -/
theorem chain2_early_exit_witness :
    2 ≤ ([⟨0, 0, 20, 0, false, false⟩, ⟨25, 25, 20, 0, false, false⟩] : List SubstrPair).length ∧
    (chainer2DP defaultChaining2Options
      [⟨0, 0, 20, 0, false, false⟩, ⟨25, 25, 20, 0, false, false⟩]).bigM < 100 ∧
    chain2 defaultChaining2Options
      [⟨0, 0, 20, 0, false, false⟩, ⟨25, 25, 20, 0, false, false⟩] =
      some ⟨[], 0, 0, 0, 0, 0, 0⟩ :=
  ⟨by decide, by decide, chain2_early_exit _ _ (by decide) (by decide)⟩

/-! ## The single-seed prefilter -/

/-- Counterexample for C3 as stated: with `K = 21`, `MinPrefix = 15`,
`MaxMismatch = 2` (so `checkMismatch` holds) and `MinSinglePrefix = 20`, a
target whose single cleaned anchor has `Len = 21 ≥ MinSinglePrefix` but
`Mismatch = 3 > MaxMismatch` is dropped by `Index.Search`, although the
claim's disjunction (`Len ≥ MinSinglePrefix` or `Mismatch ≤ MaxMismatch`)
holds for it. -/
theorem prefilter_single_cex :
    (clearSubstrPairs [⟨0, 0, 21, 3, false, false⟩] 21).length = 1 ∧
    20 ≤ ((clearSubstrPairs [⟨0, 0, 21, 3, false, false⟩] 21).headD default).len ∧
    prefilterTarget 21 2 15 20 [⟨0, 0, 21, 3, false, false⟩] = none := by
  decide

/-- C3 (amended).  A target whose cleaned anchor list has exactly one anchor
is kept by the prefilter of `Index.Search` if and only if: when
`checkMismatch` holds (`0 ≤ MaxMismatch < K - MinPrefix`) the anchor's
mismatch count is at most `MaxMismatch`, and otherwise the anchor's length
is at least `MinSinglePrefix`.  (The two conditions are never combined
disjunctively as the claim states.) -/
theorem prefilter_single_iff (k : Nat) (maxM : Int) (minPref minSingle : Nat)
    (subs0 : List SubstrPair) (h1 : (clearSubstrPairs subs0 k).length = 1) :
    ((prefilterTarget k maxM minPref minSingle subs0).isSome = true ↔
      (if checkMismatchFlag maxM k minPref then
        (((clearSubstrPairs subs0 k).headD default).mismatch : Int) ≤ maxM
      else minSingle ≤ ((clearSubstrPairs subs0 k).headD default).len)) := by
  have hl : ((clearSubstrPairs subs0 k).length == 1) = true := by simp [h1]
  unfold prefilterTarget
  simp only [hl]
  cases hcm : checkMismatchFlag maxM k minPref
  · simp only [hcm, Bool.false_eq_true, if_false, Bool.true_and]
    by_cases hd : ((clearSubstrPairs subs0 k).headD default).len < minSingle
    · simp [hd]
    · simp [hd]
  · simp only [hcm, if_true, Bool.true_and]
    by_cases hd : maxM < (((clearSubstrPairs subs0 k).headD default).mismatch : Int)
    · simp [hd]
    · simp [hd]

/-- Witness for C3 at a concrete input (default `MaxMismatch = -1`, so
`checkMismatch` is off and the length test applies). -/
theorem prefilter_single_iff_witness :
    (clearSubstrPairs [⟨0, 0, 21, 3, false, false⟩] 21).length = 1 ∧
    ((prefilterTarget 21 (-1) 15 20 [⟨0, 0, 21, 3, false, false⟩]).isSome = true ↔
      (if checkMismatchFlag (-1) 21 15 then
        ((((clearSubstrPairs [⟨0, 0, 21, 3, false, false⟩] 21).headD default).mismatch : Int)
          ≤ (-1 : Int))
      else 20 ≤ ((clearSubstrPairs [⟨0, 0, 21, 3, false, false⟩] 21).headD default).len)) :=
  ⟨by decide, prefilter_single_iff 21 (-1) 15 20 _ (by decide)⟩

/-! ## The coverage filter -/

/-- C6.  Every target that survives the coverage filter of `Index.Search`
carries an aligned fraction equal to the length of the union of the query
intervals of its kept fragments, divided by the query length, times 100,
capped at 100 — and that fraction is at least
`MinQueryAlignedFractionInAGenome`; targets below the threshold are
dropped. -/
theorem coverage_stage_aligned_fraction (sds : List (List (Int × Int))) (qlen : Nat)
    (minAF af : ℚ) (h : coverageStage sds qlen minAF = some af) :
    af = min 100 ((coverageLen sds.flatten : ℚ) / (qlen : ℚ) * 100) ∧
    minAF ≤ af ∧ af ≤ 100 := by
  simp only [coverageStage] at h
  split_ifs at h with h1 h2 h2 <;> simp only [Option.some.injEq] at h <;> subst h
  · exact ⟨(min_eq_left (le_of_lt h1)).symm, le_of_not_lt h2, le_refl _⟩
  · exact ⟨(min_eq_right (le_of_not_lt h1)).symm, le_of_not_lt h2, le_of_not_lt h1⟩

/-- Witness for C6 at a concrete input: two fragments covering 15 of 20
query bases give an aligned fraction of 75 ≥ 50. -/
theorem coverage_stage_aligned_fraction_witness :
    coverageStage [[((0 : Int), (9 : Int))], [(5, 14)]] 20 50 = some 75 ∧
    (75 : ℚ) = min 100 ((coverageLen ([[((0 : Int), (9 : Int))], [(5, 14)]] : List
      (List (Int × Int))).flatten : ℚ) / (20 : ℚ) * 100) ∧
    (50 : ℚ) ≤ 75 ∧ (75 : ℚ) ≤ 100 := by
  have hcov : coverageLen ([[((0 : Int), (9 : Int))], [(5, 14)]] : List
      (List (Int × Int))).flatten = 15 := by decide
  have hs : coverageStage [[((0 : Int), (9 : Int))], [(5, 14)]] 20 50 = some 75 := by
    simp only [coverageStage, hcov]
    norm_num
  exact ⟨hs, coverage_stage_aligned_fraction _ _ _ _ hs⟩

/-! ## ClearSubstrPairs -/

theorem substrLess_char (a b : SubstrPair) :
    substrLess a b = true ↔
      (a.qBegin < b.qBegin ∨
        (a.qBegin = b.qBegin ∧
          (b.qBegin + (b.len : Int) < a.qBegin + (a.len : Int) ∨
            (a.qBegin + (a.len : Int) = b.qBegin + (b.len : Int) ∧ a.tBegin ≤ b.tBegin)))) := by
  unfold substrLess
  split_ifs with h1 h2
  · simp only [beq_iff_eq] at h1 h2
    simp only [decide_eq_true_eq]
    omega
  · simp only [beq_iff_eq] at h1 h2
    simp only [decide_eq_true_eq]
    omega
  · simp only [beq_iff_eq] at h1
    simp only [decide_eq_true_eq]
    omega

theorem substrLE_total2 (a b : SubstrPair) : substrLE a b ∨ substrLE b a := by
  unfold substrLE
  rw [substrLess_char, substrLess_char]
  omega

theorem substrLE_trans2 (a b c : SubstrPair) (hab : substrLE a b) (hbc : substrLE b c) :
    substrLE a c := by
  unfold substrLE at *
  rw [substrLess_char] at *
  omega

theorem sorted_pairwise (subs : List SubstrPair) :
    List.Pairwise substrLE (subs.insertionSort substrLE) := by
  haveI : IsTotal SubstrPair substrLE := ⟨substrLE_total2⟩
  haveI : IsTrans SubstrPair substrLE := ⟨substrLE_trans2⟩
  exact List.sorted_insertionSort substrLE subs

theorem pairwise_getD (l : List SubstrPair) (h : List.Pairwise substrLE l) (s t : Nat)
    (hst : s < t) (ht : t < l.length) : substrLE (l.getD s default) (l.getD t default) := by
  have hs : s < l.length := lt_trans hst ht
  have hg := List.pairwise_iff_getElem.mp h s t hs ht hst
  simpa [List.getD_eq_getElem?_getD, List.getElem?_eq_getElem hs,
    List.getElem?_eq_getElem ht] using hg

theorem getD_mem_self (l : List SubstrPair) (s : Nat) (h : s < l.length) :
    l.getD s default ∈ l := by
  rw [List.getD_eq_getElem?_getD, List.getElem?_eq_getElem h]
  exact List.getElem_mem h

theorem nestedCond_of_rect (v p : SubstrPair) (h : nestedRect v p) :
    nestedCond v p = true := by
  unfold nestedRect at h
  unfold nestedCond
  simp only [Bool.and_eq_true, decide_eq_true_eq]
  omega

theorem nested_forward_symm (v b : SubstrPair) (hle : substrLE v b) (hn : nestedRect v b) :
    nestedRect b v := by
  unfold substrLE at hle
  rw [substrLess_char] at hle
  unfold nestedRect at *
  omega

theorem markedDown_true_of_container (sorted : List SubstrPair) (kk : Int) (v : SubstrPair)
    (hsort : List.Pairwise substrLE sorted)
    (hk : ∀ a ∈ sorted, (a.len : Int) ≤ kk)
    (s : Nat) (hslen : s < sorted.length)
    (hnest : nestedRect v (sorted.getD s default)) :
    ∀ j, s ≤ j → j < sorted.length → markedDown sorted kk v j = true := by
  have hcq : v.qBegin + (v.len : Int) - kk ≤ (sorted.getD s default).qBegin := by
    have hcl : ((sorted.getD s default).len : Int) ≤ kk :=
      hk _ (getD_mem_self sorted s hslen)
    unfold nestedRect at hnest
    omega
  have hnobreak : ∀ t, s ≤ t → t < sorted.length →
      ¬ (sorted.getD t default).qBegin < v.qBegin + (v.len : Int) - kk := by
    intro t hst htlen
    rcases Nat.lt_or_ge s t with hlt | hge
    · have hle := pairwise_getD sorted hsort s t hlt htlen
      unfold substrLE at hle
      rw [substrLess_char] at hle
      omega
    · have hst2 : s = t := by omega
      rw [← hst2]
      omega
  intro j
  induction j with
  | zero =>
    intro hsj hjlen
    have hs0 : s = 0 := by omega
    unfold markedDown
    rw [if_neg (by simpa using hnobreak 0 (by omega) hjlen)]
    exact nestedCond_of_rect v _ (by rw [← hs0] at *; exact hnest)
  | succ j ih =>
    intro hsj hjlen
    unfold markedDown
    rw [if_neg (by simpa using hnobreak (j + 1) hsj hjlen)]
    by_cases hc : nestedCond v (sorted.getD (j + 1) default) = true
    · rw [if_pos hc]
    · rw [if_neg hc]
      have hsne : s ≠ j + 1 := by
        intro he
        exact hc (nestedCond_of_rect v _ (he ▸ hnest))
      exact ih (by omega) (by omega)

theorem filterMarked_sublist (sorted : List SubstrPair) (kk : Int) :
    ∀ t l, List.Sublist (filterMarked sorted kk t l) l := by
  intro t l
  induction l generalizing t with
  | nil => simp [filterMarked]
  | cons v rest ih =>
    unfold filterMarked
    by_cases hkeep : (t == 0 || !markedDown sorted kk v (t - 1)) = true
    · rw [if_pos hkeep]
      exact List.Sublist.cons₂ v (ih (t + 1))
    · rw [if_neg hkeep]
      exact List.Sublist.cons v (ih (t + 1))

theorem drop_cons_facts (sorted : List SubstrPair) (t : Nat) (v : SubstrPair)
    (rest : List SubstrPair) (hdrop : v :: rest = sorted.drop t) :
    t < sorted.length ∧ sorted.getD t default = v ∧ rest = sorted.drop (t + 1) := by
  have ht : t < sorted.length := by
    by_contra hc
    rw [List.drop_eq_nil_of_le (le_of_not_lt hc)] at hdrop
    exact List.cons_ne_nil v rest hdrop
  refine ⟨ht, ?_, ?_⟩
  · have h1 : sorted[t]? = some v := by
      have := List.getElem?_drop sorted t 0
      rw [← hdrop] at this
      simpa using this.symm
    simp [List.getD_eq_getElem?_getD, h1]
  · rw [← List.tail_drop, ← hdrop]
    rfl

theorem mem_filterMarked (sorted : List SubstrPair) (kk : Int) :
    ∀ t l, l = sorted.drop t → ∀ b ∈ filterMarked sorted kk t l,
      ∃ u, t ≤ u ∧ u < sorted.length ∧ sorted.getD u default = b ∧
        (u = 0 ∨ markedDown sorted kk b (u - 1) = false) := by
  intro t l
  induction l generalizing t with
  | nil => intro _ b hb; simp [filterMarked] at hb
  | cons v rest ih =>
    intro hdrop b hb
    obtain ⟨ht, hv, hrest⟩ := drop_cons_facts sorted t v rest hdrop
    unfold filterMarked at hb
    by_cases hkeep : (t == 0 || !markedDown sorted kk v (t - 1)) = true
    · rw [if_pos hkeep] at hb
      rcases List.mem_cons.mp hb with rfl | hb2
      · refine ⟨t, le_refl _, ht, hv, ?_⟩
        simpa [Bool.or_eq_true, Bool.not_eq_true'] using hkeep
      · obtain ⟨u, hu1, hu2, hu3, hu4⟩ := ih (t + 1) hrest b hb2
        exact ⟨u, by omega, hu2, hu3, hu4⟩
    · rw [if_neg hkeep] at hb
      obtain ⟨u, hu1, hu2, hu3, hu4⟩ := ih (t + 1) hrest b hb
      exact ⟨u, by omega, hu2, hu3, hu4⟩

theorem pairwise_filterMarked (sorted : List SubstrPair) (kk : Int)
    (hsort : List.Pairwise substrLE sorted)
    (hk : ∀ a ∈ sorted, (a.len : Int) ≤ kk) :
    ∀ t l, l = sorted.drop t →
      List.Pairwise (fun a b => ¬ nestedRect a b ∧ ¬ nestedRect b a)
        (filterMarked sorted kk t l) := by
  intro t l
  induction l generalizing t with
  | nil => intro _; simp [filterMarked]
  | cons v rest ih =>
    intro hdrop
    obtain ⟨ht, hv, hrest⟩ := drop_cons_facts sorted t v rest hdrop
    unfold filterMarked
    by_cases hkeep : (t == 0 || !markedDown sorted kk v (t - 1)) = true
    · rw [if_pos hkeep]
      constructor
      · intro b hb
        obtain ⟨u, hu1, hu2, hu3, hu4⟩ := mem_filterMarked sorted kk (t + 1) rest hrest b hb
        have hunmark : markedDown sorted kk b (u - 1) = false :=
          hu4.resolve_left (by omega)
        have hcontainer : nestedRect b v → False := by
          intro hn
          have := markedDown_true_of_container sorted kk b hsort hk t ht
            (by rw [hv]; exact hn) (u - 1) (by omega) (by omega)
          rw [hunmark] at this
          cases this
        constructor
        · intro hn
          have hle : substrLE v b := by
            have := pairwise_getD sorted hsort t u (by omega) hu2
            rwa [hv, hu3] at this
          exact hcontainer (nested_forward_symm v b hle hn)
        · exact hcontainer
      · exact ih (t + 1) hrest
    · rw [if_neg hkeep]
      exact ih (t + 1) hrest

/-- C7.  After `ClearSubstrPairs(subs, k)` on anchors whose lengths are at
most `k`, the surviving anchors are sorted by ascending `QBegin` with ties
by descending query end, and no surviving anchor has both its query and its
target interval contained in those of another surviving anchor (hence no
duplicates either). -/
theorem clearSubstrPairs_sorted_nonnested (subs : List SubstrPair) (k : Nat)
    (hlen : ∀ a ∈ subs, a.len ≤ k) :
    List.Pairwise (fun a b => a.qBegin < b.qBegin ∨
        (a.qBegin = b.qBegin ∧ b.qBegin + (b.len : Int) ≤ a.qBegin + (a.len : Int)))
      (clearSubstrPairs subs k) ∧
    List.Pairwise (fun a b => ¬ nestedRect a b ∧ ¬ nestedRect b a)
      (clearSubstrPairs subs k) := by
  unfold clearSubstrPairs
  by_cases hsz : subs.length < 2
  · rw [if_pos hsz]
    match subs, hsz with
    | [], _ => exact ⟨List.Pairwise.nil, List.Pairwise.nil⟩
    | [a], _ => exact ⟨List.pairwise_singleton _ _, List.pairwise_singleton _ _⟩
  · rw [if_neg hsz]
    have hsort := sorted_pairwise subs
    have hk : ∀ a ∈ subs.insertionSort substrLE, (a.len : Int) ≤ (k : Int) := by
      intro a ha
      have hmem : a ∈ subs := (List.perm_insertionSort substrLE subs).mem_iff.mp ha
      have := hlen a hmem
      omega
    constructor
    · have hpw : List.Pairwise (fun a b => a.qBegin < b.qBegin ∨
          (a.qBegin = b.qBegin ∧ b.qBegin + (b.len : Int) ≤ a.qBegin + (a.len : Int)))
          (subs.insertionSort substrLE) := by
        refine hsort.imp ?_
        intro a b hab
        unfold substrLE at hab
        rw [substrLess_char] at hab
        omega
      exact List.Pairwise.sublist
        (filterMarked_sublist (subs.insertionSort substrLE) (k : Int) 0 _) hpw
    · exact pairwise_filterMarked (subs.insertionSort substrLE) (k : Int) hsort hk 0 _ rfl

/-- Witness for C7 at a concrete anchor list with a duplicate and a nested
anchor (query interval of the fourth anchor is nested but its target
interval is not, so it must survive). -/
theorem clearSubstrPairs_sorted_nonnested_witness :
    (∀ a ∈ [(⟨2, 2, 10, 0, false, false⟩ : SubstrPair), ⟨5, 40, 15, 0, false, false⟩,
        ⟨0, 0, 20, 0, false, false⟩, ⟨0, 0, 20, 0, false, false⟩], a.len ≤ 21) ∧
    (List.Pairwise (fun a b => a.qBegin < b.qBegin ∨
        (a.qBegin = b.qBegin ∧ b.qBegin + (b.len : Int) ≤ a.qBegin + (a.len : Int)))
      (clearSubstrPairs [⟨2, 2, 10, 0, false, false⟩, ⟨5, 40, 15, 0, false, false⟩,
        ⟨0, 0, 20, 0, false, false⟩, ⟨0, 0, 20, 0, false, false⟩] 21) ∧
    List.Pairwise (fun a b => ¬ nestedRect a b ∧ ¬ nestedRect b a)
      (clearSubstrPairs [⟨2, 2, 10, 0, false, false⟩, ⟨5, 40, 15, 0, false, false⟩,
        ⟨0, 0, 20, 0, false, false⟩, ⟨0, 0, 20, 0, false, false⟩] 21)) :=
  ⟨by decide, clearSubstrPairs_sorted_nonnested _ 21 (by decide)⟩

/-! ## The k-mer-value searcher: basic lemmas -/

theorem bitLen_le_fuel (f : Nat) : ∀ x, bitLen f x ≤ f := by
  induction f with
  | zero => intro x; simp [bitLen]
  | succ f ih =>
    intro x
    unfold bitLen
    split
    · omega
    · have := ih (x / 2)
      omega

theorem bitLen_le_of_lt (f : Nat) : ∀ n x, x < 2 ^ n → n ≤ f → bitLen f x ≤ n := by
  induction f with
  | zero => intro n x _ _; simp [bitLen]
  | succ f ih =>
    intro n x hx hn
    unfold bitLen
    split
    · omega
    · rename_i hx0
      have hn1 : 1 ≤ n := by
        by_contra hc
        have : n = 0 := by omega
        rw [this] at hx
        simp at hx
        omega
      have hhalf : x / 2 < 2 ^ (n - 1) := by
        have h2 : (2 : Nat) ^ n = 2 * 2 ^ (n - 1) := by
          rw [← pow_succ']
          congr 1
          omega
        omega
      have := ih (n - 1) (x / 2) hhalf (by omega)
      omega

theorem goMaxKmer_eq (k : Nat) (hk : k ≤ 32) : goMaxKmer k = 2 ^ (2 * k) - 1 := by
  unfold goMaxKmer U64
  rcases Nat.lt_or_ge (2 * k) 64 with h | h
  · rw [if_pos h]
    have hle : (2 : Nat) ^ (2 * k) ≤ 2 ^ 64 := Nat.pow_le_pow_right (by norm_num) (by omega)
    have hpos : 1 ≤ (2 : Nat) ^ (2 * k) := Nat.one_le_two_pow
    have h1 : 2 ^ (2 * k) + (2 ^ 64 - 1) = (2 ^ (2 * k) - 1) + 2 ^ 64 := by omega
    rw [h1, Nat.add_mod_right, Nat.mod_eq_of_lt (by omega)]
  · rw [if_neg (by omega)]
    have h64 : 2 * k = 64 := by omega
    rw [h64, Nat.zero_add, Nat.mod_eq_of_lt (by omega)]

theorem goMaxKmer_lt_U64 (k : Nat) (hk : k ≤ 32) : goMaxKmer k < U64 := by
  rw [goMaxKmer_eq k hk]
  have : (2 : Nat) ^ (2 * k) ≤ 2 ^ 64 := Nat.pow_le_pow_right (by norm_num) (by omega)
  unfold U64
  have hpos : 1 ≤ (2 : Nat) ^ (2 * k) := Nat.one_le_two_pow
  omega

theorem prefLen_spec (k qk x maxK : Nat) (hk : k ≤ 32) (hmax : maxK = 2 ^ (2 * k) - 1)
    (hq : qk ≤ maxK) (hx : x ≤ maxK) :
    prefLenOf k qk x + 32 = lz64 (qk ^^^ x) / 2 + k := by
  have hpos : 1 ≤ (2 : Nat) ^ (2 * k) := Nat.one_le_two_pow
  have hxor : qk ^^^ x < 2 ^ (2 * k) :=
    Nat.xor_lt_two_pow (by omega) (by omega)
  have hbl : bitLen 64 (qk ^^^ x) ≤ 2 * k := bitLen_le_of_lt 64 (2 * k) _ hxor (by omega)
  have hbf : bitLen 64 (qk ^^^ x) ≤ 64 := bitLen_le_fuel 64 _
  unfold prefLenOf lz64
  omega

theorem readKmerFrame_ne_fail_invalid (buf : List Nat) :
    readKmerFrame buf ≠ .fail .invalidKmer := by
  intro h
  unfold readKmerFrame at h
  repeat' (first | split at h | simp only [] at h)
  all_goals simp at h

theorem readLenFrame_ne_fail_invalid (buf : List Nat) :
    readLenFrame buf ≠ .fail .invalidKmer := by
  intro h
  unfold readLenFrame at h
  repeat' (first | split at h | simp only [] at h)
  all_goals simp at h

theorem scanMask_ne_invalid (k qk lb rb anchor : Nat) :
    ∀ fuel buf first offs found acc,
      scanMask k qk lb rb anchor fuel buf first offs found acc ≠ .invalidKmer := by
  intro fuel
  induction fuel with
  | zero => intro buf first offs found acc; simp [scanMask]
  | succ fuel ih =>
    intro buf first offs found acc
    intro h
    unfold scanMask at h
    repeat' (first | split at h | simp only [] at h)
    all_goals first
      | exact ih _ _ _ _ _ h
      | (subst h; rename_i heq; exact readKmerFrame_ne_fail_invalid _ heq)
      | (subst h; rename_i heq; exact readLenFrame_ne_fail_invalid _ heq)
      | simp at h

theorem searchMasks_ne_invalid (k qk lb rb : Nat) (file : List Nat) :
    ∀ idxs acc, searchMasks k qk lb rb file idxs acc ≠ .invalidKmer := by
  intro idxs
  induction idxs with
  | nil => intro acc; simp [searchMasks]
  | cons idx rest ih =>
    intro acc
    unfold searchMasks
    split
    · exact nofun
    · dsimp only
      split
      · apply ih
      · apply scanMask_ne_invalid

/-- C9.  `Searcher.Search(kmer, m)` reports the invalid-k-mer error exactly
when the query is at least `2^(2k)`; the error is an ordinary return value
(a constructor of the outcome type, not a crash), and in that case the
outcome is the same whatever the file contents — no byte of the file is
consumed. -/
theorem kv_search_invalid_iff (scr : KVSearcher) (kmer m : Nat) (hk : scr.k ≤ 32) :
    (kvSearch scr kmer m = .invalidKmer ↔ 2 ^ (2 * scr.k) ≤ kmer) ∧
    (2 ^ (2 * scr.k) ≤ kmer → ∀ file2,
      kvSearch ⟨scr.k, scr.indexes, file2⟩ kmer m = .invalidKmer) := by
  have hmax := goMaxKmer_eq scr.k hk
  have hpos : 1 ≤ (2 : Nat) ^ (2 * scr.k) := Nat.one_le_two_pow
  refine ⟨⟨?_, ?_⟩, ?_⟩
  · intro h
    by_contra hc
    unfold kvSearch at h
    rw [if_neg (by omega)] at h
    exact searchMasks_ne_invalid _ _ _ _ _ _ _ h
  · intro h
    unfold kvSearch
    rw [if_pos (by omega)]
  · intro h file2
    unfold kvSearch
    rw [if_pos (by simp only; omega)]

/-- Witness for C9 at a concrete searcher (`k = 3`, so `maxKmer = 63`). -/
theorem kv_search_invalid_iff_witness :
    ((kvSearch ⟨3, [[5, 0, 5, 0]], [192, 5, 0, 0, 1, 0, 0, 0, 0, 0, 0, 0, 0, 7]⟩ 100 2 =
        .invalidKmer ↔ 2 ^ (2 * 3) ≤ 100) ∧
      (2 ^ (2 * 3) ≤ 100 → ∀ file2,
        kvSearch ⟨3, [[5, 0, 5, 0]], file2⟩ 100 2 = .invalidKmer)) :=
  kv_search_invalid_iff ⟨3, [[5, 0, 5, 0]], [192, 5, 0, 0, 1, 0, 0, 0, 0, 0, 0, 0, 0, 7]⟩
    100 2 (by norm_num)

/-- A failed k-mer frame parse is a short read or a zero decode count. -/
theorem readKmerFrame_fail_cases (buf : List Nat) (e : KVOut)
    (h : readKmerFrame buf = .fail e) : e = .ioErr ∨ e = .broken := by
  unfold readKmerFrame at h
  repeat' (first | split at h | simp only [] at h)
  all_goals simp_all

/-- A failed value-length frame parse is a short read, an out-of-range
table index (panic) or a zero decode count. -/
theorem readLenFrame_fail_cases (buf : List Nat) (e : KVOut)
    (h : readLenFrame buf = .fail e) : e = .ioErr ∨ e = .crash ∨ e = .broken := by
  unfold readLenFrame at h
  repeat' (first | split at h | simp only [] at h)
  all_goals simp_all

/-- The right bound `kmer>>suffix2<<suffix2 + mask` computed by
`Searcher.Search` equals `kmer | mask` for `mask = 2^(2(k-m)) - 1`. -/
theorem rightBoundOf_eq (k kmer m : Nat) (h2 : m ≤ k) :
    rightBoundOf k kmer m = kmer ||| (2 ^ (2 * (k - m)) - 1) := by
  unfold rightBoundOf
  by_cases h : m < k
  · rw [if_pos h]
    have hs : (k - m) <<< 1 = 2 * (k - m) := by
      rw [Nat.shiftLeft_eq]; ring
    rw [hs]
    have hone : (1 : Nat) <<< (2 * (k - m)) = 2 ^ (2 * (k - m)) := by
      rw [Nat.shiftLeft_eq, one_mul]
    rw [hone]
    rw [Nat.shiftLeft_eq, Nat.mul_comm]
    rw [Nat.mul_add_lt_is_or (Nat.sub_lt (Nat.two_pow_pos _) Nat.one_pos) (kmer >>> (2 * (k - m)))]
    apply Nat.eq_of_testBit_eq
    intro i
    simp only [Nat.testBit_or, Nat.testBit_two_pow_sub_one]
    by_cases hi : i < 2 * (k - m)
    · simp [hi]
    · have h8 : 2 ^ (2 * (k - m)) * (kmer >>> (2 * (k - m))) =
          (kmer >>> (2 * (k - m))) <<< (2 * (k - m)) := by
        rw [Nat.shiftLeft_eq, Nat.mul_comm]
      rw [h8]
      simp only [Nat.testBit_shiftLeft, Nat.testBit_shiftRight]
      have hge : i ≥ 2 * (k - m) := by omega
      have : 2 * (k - m) + (i - 2 * (k - m)) = i := by omega
      simp [hge, this, hi]
  · have hmk : m = k := by omega
    subst hmk
    rw [if_neg h]
    simp

/-- The left bound computed by `Searcher.Search` equals
`kmer & ^mask` (i.e. `kmer & (2^64 - 1 - mask)`) for every `m ≤ k`. -/
theorem leftBoundOf_eq (k kmer m : Nat) (h2 : m ≤ k) (hkm : kmer < U64) :
    leftBoundOf k kmer m = kmer &&& (U64 - 1 - (2 ^ (2 * (k - m)) - 1)) := by
  unfold leftBoundOf
  by_cases h : m < k
  · rw [if_pos h]
    have hs : (k - m) <<< 1 = 2 * (k - m) := by
      rw [Nat.shiftLeft_eq]; ring
    rw [hs]
    have hone : (1 : Nat) <<< (2 * (k - m)) = 2 ^ (2 * (k - m)) := by
      rw [Nat.shiftLeft_eq, one_mul]
    rw [hone]
  · have hmk : m = k := by omega
    subst hmk
    rw [if_neg h]
    simp only [Nat.sub_self, Nat.mul_zero, pow_zero, Nat.sub_self, Nat.sub_zero]
    apply Nat.eq_of_testBit_eq
    intro i
    simp only [Nat.testBit_and]
    by_cases hi : i < 64
    · have : U64 - 1 = 2 ^ 64 - 1 := rfl
      rw [this, Nat.testBit_two_pow_sub_one]
      simp [hi]
    · have hbig : kmer < 2 ^ i := by
        calc kmer < U64 := hkm
        _ ≤ 2 ^ i := Nat.pow_le_pow_right (by norm_num) (by omega)
      rw [Nat.testBit_lt_two_pow hbig]
      simp

/-- Soundness of the scan loop after the first record (`first = false`):
on a well-formed section every scan that ends in a result list extends the
accumulator with k-mers inside `[lb, rb]`, bounded by `maxK`, carrying the
computed prefix length, strictly increasing, and all above the running
offset. -/
theorem scanMask_sound_false (k qk lb rb maxK anchor : Nat) (hmaxU : maxK < U64) :
    ∀ fuel buf offs found acc out,
      wfTail maxK fuel anchor false offs buf = true →
      offs ≤ maxK →
      (found = true → lb ≤ offs) →
      scanMask k qk lb rb anchor fuel buf false offs found acc = .ok out →
      ∃ nl, out = acc ++ nl ∧
        (∀ r ∈ nl, lb ≤ r.kmer ∧ r.kmer ≤ rb ∧ r.kmer ≤ maxK ∧
          r.prefLen = prefLenOf k qk r.kmer) ∧
        List.Chain' (fun a b => a.kmer < b.kmer) nl ∧
        (∀ r ∈ nl, offs < r.kmer) := by
  intro fuel
  induction fuel with
  | zero =>
    intro buf offs found acc out hwf hoffs hfound h
    simp [scanMask] at h
  | succ fuel ih =>
    intro buf offs found acc out hwf hoffs hfound h
    unfold scanMask at h
    unfold wfTail at hwf
    cases hfr : readKmerFrame buf with
    | fail e =>
      rw [hfr] at h
      rcases readKmerFrame_fail_cases buf e hfr with he | he <;> simp [he] at h
    | frame lastPair hasKmer2 d0 d1 b2 =>
      rw [hfr] at h hwf
      simp only [Bool.false_eq_true, if_false] at h hwf
      simp only [Bool.and_eq_true, Bool.or_eq_true, Bool.false_or, decide_eq_true_eq,
        Bool.not_eq_true'] at hwf
      obtain ⟨⟨⟨⟨hbd, hd0⟩, hd1c⟩, hk2c⟩, htail⟩ := hwf
      have hmod1 : (d0 + offs) % U64 = d0 + offs := Nat.mod_eq_of_lt (by omega)
      rw [hmod1] at h
      have hmod2 : (d0 + offs + d1) % U64 = d0 + offs + d1 := Nat.mod_eq_of_lt (by omega)
      rw [hmod2] at h
      have hE1 : ((found || decide (lb ≤ d0 + offs) || decide (lb ≤ d0 + offs + d1)) &&
          decide (lb ≤ d0 + offs)) = decide (lb ≤ d0 + offs) := by
        by_cases hc : lb ≤ d0 + offs <;> simp [hc]
      rw [hE1] at h
      simp only [decide_eq_true_eq] at h
      by_cases hc1 : rb < d0 + offs
      · rw [if_pos hc1] at h
        refine ⟨[], by simp [← KVOut.ok.inj h], by simp, by simp, by simp⟩
      rw [if_neg hc1] at h
      cases hlf : readLenFrame b2 with
      | fail e =>
        rw [hlf] at h
        rcases readLenFrame_fail_cases b2 e hlf with he | he | he <;> simp [he] at h
      | lens lv1 lv2 b4 =>
      rw [hlf] at h htail
      simp only [] at h htail
      cases hv1 : readVals lv1 b4 with
      | none => rw [hv1] at h; simp only [] at h; exact absurd h (by simp)
      | some p1 =>
      obtain ⟨vs1, b5⟩ := p1
      rw [hv1] at h htail
      simp only [] at h htail
      set F := found || decide (lb ≤ d0 + offs) || decide (lb ≤ d0 + offs + d1) with hFdef
      have hf2 : F = true → lb ≤ d0 + offs + d1 := by
        intro hc
        rw [hFdef] at hc
        simp only [Bool.or_eq_true, decide_eq_true_eq] at hc
        rcases hc with (hc | hc) | hc
        · have := hfound hc; omega
        · omega
        · exact hc
      -- the two possible values of acc1
      by_cases hq1 : lb ≤ d0 + offs
      case pos =>
        rw [if_pos hq1] at h
        by_cases hc2 : rb < d0 + offs + d1
        · rw [if_pos hc2] at h
          refine ⟨[⟨d0 + offs, prefLenOf k qk (d0 + offs), vs1⟩],
            by simp [← KVOut.ok.inj h], ?_, by simp, ?_⟩
          · intro r hr
            simp at hr
            subst hr
            exact ⟨hq1, by dsimp only; omega, by dsimp only; omega, rfl⟩
          · intro r hr
            simp at hr
            subst hr
            simp
            omega
        rw [if_neg hc2] at h
        by_cases hc3 : (lastPair && !hasKmer2) = true
        · rw [if_pos hc3] at h
          refine ⟨[⟨d0 + offs, prefLenOf k qk (d0 + offs), vs1⟩],
            by simp [← KVOut.ok.inj h], ?_, by simp, ?_⟩
          · intro r hr
            simp at hr
            subst hr
            exact ⟨hq1, by dsimp only; omega, by dsimp only; omega, rfl⟩
          · intro r hr
            simp at hr
            subst hr
            simp
            omega
        rw [if_neg hc3] at h
        -- hasKmer2 must be true here in the remaining branches that use d1 ≥ 1
        cases hv2 : readVals lv2 b5 with
        | none => rw [hv2] at h; simp only [] at h; exact absurd h (by simp)
        | some p2 =>
        obtain ⟨vs2, b6⟩ := p2
        rw [hv2] at h htail
        simp only [] at h htail
        have hFt : F = true := by rw [hFdef]; simp [hq1]
        rw [if_pos hFt] at h
        by_cases hlp : lastPair = true
        · rw [if_pos hlp] at h
          have hhk2 : hasKmer2 = true := by
            rcases hk2c with hk | ⟨hd1z, hlp'⟩
            · exact hk
            · simp [hlp'] at hc3
              simpa using hc3
          have hd1p : 1 ≤ d1 := by
            rcases hd1c with hk | hk
            · rw [hhk2] at hk; exact absurd hk (by simp)
            · exact hk
          refine ⟨[⟨d0 + offs, prefLenOf k qk (d0 + offs), vs1⟩,
              ⟨d0 + offs + d1, prefLenOf k qk (d0 + offs + d1), vs2⟩],
            by simp [← KVOut.ok.inj h], ?_, ?_, ?_⟩
          · intro r hr
            simp at hr
            rcases hr with hr | hr <;> subst hr
            · exact ⟨hq1, by dsimp only; omega, by dsimp only; omega, rfl⟩
            · exact ⟨by dsimp only; omega, by dsimp only; omega, by dsimp only; omega, rfl⟩
          · simp [List.chain'_cons]
            omega
          · intro r hr
            simp at hr
            rcases hr with hr | hr <;> subst hr <;> simp <;> omega
        · rw [if_neg hlp] at h
          have hlpf : lastPair = false := by simpa using hlp
          have hhk2 : hasKmer2 = true := by
            rcases hk2c with hk | ⟨hd1z, hlp'⟩
            · exact hk
            · rw [hlp'] at hlpf; exact absurd hlpf (by simp)
          have hd1p : 1 ≤ d1 := by
            rcases hd1c with hk | hk
            · rw [hhk2] at hk; exact absurd hk (by simp)
            · exact hk
          rw [hlpf] at htail
          simp only [Bool.false_or] at htail
          obtain ⟨nl2, hout, hfacts, hchain, hgt⟩ :=
            ih b6 (d0 + offs + d1) F _ out htail (by omega) hf2 h
          refine ⟨⟨d0 + offs, prefLenOf k qk (d0 + offs), vs1⟩ ::
              ⟨d0 + offs + d1, prefLenOf k qk (d0 + offs + d1), vs2⟩ :: nl2,
            by simp [hout], ?_, ?_, ?_⟩
          · intro r hr
            simp only [List.mem_cons] at hr
            rcases hr with hr | hr | hr
            · subst hr; exact ⟨hq1, by dsimp only; omega, by dsimp only; omega, rfl⟩
            · subst hr; exact ⟨by dsimp only; omega, by dsimp only; omega, by dsimp only; omega, rfl⟩
            · exact hfacts r hr
          · rw [List.chain'_cons]
            refine ⟨by simp; omega, ?_⟩
            rw [List.chain'_cons']
            refine ⟨?_, hchain⟩
            intro y hy
            have := hgt y (List.mem_of_mem_head? hy)
            simp
            omega
          · intro r hr
            simp only [List.mem_cons] at hr
            rcases hr with hr | hr | hr
            · subst hr; simp; omega
            · subst hr; simp; omega
            · have := hgt r hr; omega
      case neg =>
        rw [if_neg hq1] at h
        by_cases hc2 : rb < d0 + offs + d1
        · rw [if_pos hc2] at h
          exact ⟨[], by simp [← KVOut.ok.inj h], by simp, by simp, by simp⟩
        rw [if_neg hc2] at h
        by_cases hc3 : (lastPair && !hasKmer2) = true
        · rw [if_pos hc3] at h
          exact ⟨[], by simp [← KVOut.ok.inj h], by simp, by simp, by simp⟩
        rw [if_neg hc3] at h
        cases hv2 : readVals lv2 b5 with
        | none => rw [hv2] at h; simp only [] at h; exact absurd h (by simp)
        | some p2 =>
        obtain ⟨vs2, b6⟩ := p2
        rw [hv2] at h htail
        simp only [] at h htail
        by_cases hF : F = true
        case pos =>
          rw [if_pos hF] at h
          have hlb2 : lb ≤ d0 + offs + d1 := hf2 hF
          have hhk2 : hasKmer2 = true := by
            rcases hk2c with hk | ⟨hd1z, hlp'⟩
            · exact hk
            · simp [hlp'] at hc3; simpa using hc3
          have hd1p : 1 ≤ d1 := by
            rcases hd1c with hk | hk
            · rw [hhk2] at hk; exact absurd hk (by simp)
            · exact hk
          by_cases hlp : lastPair = true
          · rw [if_pos hlp] at h
            refine ⟨[⟨d0 + offs + d1, prefLenOf k qk (d0 + offs + d1), vs2⟩],
              by simp [← KVOut.ok.inj h], ?_, by simp, ?_⟩
            · intro r hr
              simp at hr
              subst hr
              exact ⟨hlb2, by dsimp only; omega, by dsimp only; omega, rfl⟩
            · intro r hr
              simp at hr
              subst hr
              simp
              omega
          · rw [if_neg hlp] at h
            have hlpf : lastPair = false := by simpa using hlp
            rw [hlpf] at htail
            simp only [Bool.false_or] at htail
            obtain ⟨nl2, hout, hfacts, hchain, hgt⟩ :=
              ih b6 (d0 + offs + d1) F _ out htail (by omega) hf2 h
            refine ⟨⟨d0 + offs + d1, prefLenOf k qk (d0 + offs + d1), vs2⟩ :: nl2,
              by simp [hout], ?_, ?_, ?_⟩
            · intro r hr
              simp only [List.mem_cons] at hr
              rcases hr with hr | hr
              · subst hr; exact ⟨hlb2, by dsimp only; omega, by dsimp only; omega, rfl⟩
              · exact hfacts r hr
            · rw [List.chain'_cons']
              refine ⟨?_, hchain⟩
              intro y hy
              have := hgt y (List.mem_of_mem_head? hy)
              simp
              omega
            · intro r hr
              simp only [List.mem_cons] at hr
              rcases hr with hr | hr
              · subst hr; simp; omega
              · have := hgt r hr; omega
        case neg =>
          rw [if_neg hF] at h
          by_cases hlp : lastPair = true
          · rw [if_pos hlp] at h
            exact ⟨[], by simp [← KVOut.ok.inj h], by simp, by simp, by simp⟩
          · rw [if_neg hlp] at h
            have hlpf : lastPair = false := by simpa using hlp
            rw [hlpf] at htail
            simp only [Bool.false_or] at htail
            obtain ⟨nl2, hout, hfacts, hchain, hgt⟩ :=
              ih b6 (d0 + offs + d1) F _ out htail (by omega) hf2 h
            refine ⟨nl2, by simp [hout], hfacts, hchain, ?_⟩
            intro r hr
            have := hgt r hr
            omega

/-- Soundness of a whole mask scan started at an anchor (`first = true`,
`offs = 0`, `found = false`), by one unfolding and `scanMask_sound_false`. -/
theorem scanMask_sound_true (k qk lb rb maxK anchor : Nat) (hmaxU : maxK < U64) :
    ∀ fuel buf acc out,
      wfTail maxK fuel anchor true 0 buf = true →
      scanMask k qk lb rb anchor fuel buf true 0 false acc = .ok out →
      ∃ nl, out = acc ++ nl ∧
        (∀ r ∈ nl, lb ≤ r.kmer ∧ r.kmer ≤ rb ∧ r.kmer ≤ maxK ∧
          r.prefLen = prefLenOf k qk r.kmer) ∧
        List.Chain' (fun a b => a.kmer < b.kmer) nl := by
  intro fuel
  cases fuel with
  | zero =>
    intro buf acc out hwf h
    simp [scanMask] at h
  | succ fuel =>
    intro buf acc out hwf h
    unfold scanMask at h
    unfold wfTail at hwf
    cases hfr : readKmerFrame buf with
    | fail e =>
      rw [hfr] at h
      rcases readKmerFrame_fail_cases buf e hfr with he | he <;> simp [he] at h
    | frame lastPair hasKmer2 d0 d1 b2 =>
      rw [hfr] at h hwf
      simp only [if_true, Bool.false_or] at h hwf
      simp only [Bool.and_eq_true, Bool.or_eq_true, Bool.true_or, Bool.and_true,
        decide_eq_true_eq, Bool.not_eq_true'] at hwf
      obtain ⟨⟨⟨hbd, hd1c⟩, hk2c⟩, htail⟩ := hwf
      have hmod2 : (anchor + d1) % U64 = anchor + d1 := Nat.mod_eq_of_lt (by omega)
      rw [hmod2] at h
      have hE1 : ((decide (lb ≤ anchor) || decide (lb ≤ anchor + d1)) &&
          decide (lb ≤ anchor)) = decide (lb ≤ anchor) := by
        by_cases hc : lb ≤ anchor <;> simp [hc]
      rw [hE1] at h
      simp only [decide_eq_true_eq] at h
      by_cases hc1 : rb < anchor
      · rw [if_pos hc1] at h
        refine ⟨[], by simp [← KVOut.ok.inj h], by simp, by simp⟩
      rw [if_neg hc1] at h
      cases hlf : readLenFrame b2 with
      | fail e =>
        rw [hlf] at h
        rcases readLenFrame_fail_cases b2 e hlf with he | he | he <;> simp [he] at h
      | lens lv1 lv2 b4 =>
      rw [hlf] at h htail
      simp only [] at h htail
      cases hv1 : readVals lv1 b4 with
      | none => rw [hv1] at h; simp only [] at h; exact absurd h (by simp)
      | some p1 =>
      obtain ⟨vs1, b5⟩ := p1
      rw [hv1] at h htail
      simp only [] at h htail
      set F := decide (lb ≤ anchor) || decide (lb ≤ anchor + d1) with hFdef
      have hf2 : F = true → lb ≤ anchor + d1 := by
        intro hc
        rw [hFdef] at hc
        simp only [Bool.or_eq_true, decide_eq_true_eq] at hc
        rcases hc with hc | hc
        · omega
        · exact hc
      by_cases hq1 : lb ≤ anchor
      case pos =>
        rw [if_pos hq1] at h
        by_cases hc2 : rb < anchor + d1
        · rw [if_pos hc2] at h
          refine ⟨[⟨anchor, prefLenOf k qk anchor, vs1⟩],
            by simp [← KVOut.ok.inj h], ?_, by simp⟩
          intro r hr
          simp at hr
          subst hr
          exact ⟨hq1, by dsimp only; omega, by dsimp only; omega, rfl⟩
        rw [if_neg hc2] at h
        by_cases hc3 : (lastPair && !hasKmer2) = true
        · rw [if_pos hc3] at h
          refine ⟨[⟨anchor, prefLenOf k qk anchor, vs1⟩],
            by simp [← KVOut.ok.inj h], ?_, by simp⟩
          intro r hr
          simp at hr
          subst hr
          exact ⟨hq1, by dsimp only; omega, by dsimp only; omega, rfl⟩
        rw [if_neg hc3] at h
        cases hv2 : readVals lv2 b5 with
        | none => rw [hv2] at h; simp only [] at h; exact absurd h (by simp)
        | some p2 =>
        obtain ⟨vs2, b6⟩ := p2
        rw [hv2] at h htail
        simp only [] at h htail
        have hFt : F = true := by rw [hFdef]; simp [hq1]
        rw [if_pos hFt] at h
        by_cases hlp : lastPair = true
        · rw [if_pos hlp] at h
          have hhk2 : hasKmer2 = true := by
            rcases hk2c with hk | ⟨hd1z, hlp'⟩
            · exact hk
            · simp [hlp'] at hc3
              simpa using hc3
          have hd1p : 1 ≤ d1 := by
            rcases hd1c with hk | hk
            · rw [hhk2] at hk; exact absurd hk (by simp)
            · exact hk
          refine ⟨[⟨anchor, prefLenOf k qk anchor, vs1⟩,
              ⟨anchor + d1, prefLenOf k qk (anchor + d1), vs2⟩],
            by simp [← KVOut.ok.inj h], ?_, ?_⟩
          · intro r hr
            simp at hr
            rcases hr with hr | hr <;> subst hr
            · exact ⟨hq1, by dsimp only; omega, by dsimp only; omega, rfl⟩
            · exact ⟨by dsimp only; omega, by dsimp only; omega, by dsimp only; omega, rfl⟩
          · simp [List.chain'_cons]
            omega
        · rw [if_neg hlp] at h
          have hlpf : lastPair = false := by simpa using hlp
          have hhk2 : hasKmer2 = true := by
            rcases hk2c with hk | ⟨hd1z, hlp'⟩
            · exact hk
            · rw [hlp'] at hlpf; exact absurd hlpf (by simp)
          have hd1p : 1 ≤ d1 := by
            rcases hd1c with hk | hk
            · rw [hhk2] at hk; exact absurd hk (by simp)
            · exact hk
          rw [hlpf] at htail
          simp only [Bool.false_or] at htail
          obtain ⟨nl2, hout, hfacts, hchain, hgt⟩ :=
            scanMask_sound_false k qk lb rb maxK anchor hmaxU fuel b6 (anchor + d1) F _ out
              htail (by omega) hf2 h
          refine ⟨⟨anchor, prefLenOf k qk anchor, vs1⟩ ::
              ⟨anchor + d1, prefLenOf k qk (anchor + d1), vs2⟩ :: nl2,
            by simp [hout], ?_, ?_⟩
          · intro r hr
            simp only [List.mem_cons] at hr
            rcases hr with hr | hr | hr
            · subst hr; exact ⟨hq1, by dsimp only; omega, by dsimp only; omega, rfl⟩
            · subst hr
              exact ⟨by dsimp only; omega, by dsimp only; omega, by dsimp only; omega, rfl⟩
            · exact hfacts r hr
          · rw [List.chain'_cons]
            refine ⟨by simp; omega, ?_⟩
            rw [List.chain'_cons']
            refine ⟨?_, hchain⟩
            intro y hy
            have := hgt y (List.mem_of_mem_head? hy)
            simp
            omega
      case neg =>
        rw [if_neg hq1] at h
        by_cases hc2 : rb < anchor + d1
        · rw [if_pos hc2] at h
          exact ⟨[], by simp [← KVOut.ok.inj h], by simp, by simp⟩
        rw [if_neg hc2] at h
        by_cases hc3 : (lastPair && !hasKmer2) = true
        · rw [if_pos hc3] at h
          exact ⟨[], by simp [← KVOut.ok.inj h], by simp, by simp⟩
        rw [if_neg hc3] at h
        cases hv2 : readVals lv2 b5 with
        | none => rw [hv2] at h; simp only [] at h; exact absurd h (by simp)
        | some p2 =>
        obtain ⟨vs2, b6⟩ := p2
        rw [hv2] at h htail
        simp only [] at h htail
        by_cases hF : F = true
        case pos =>
          rw [if_pos hF] at h
          have hlb2 : lb ≤ anchor + d1 := hf2 hF
          have hhk2 : hasKmer2 = true := by
            rcases hk2c with hk | ⟨hd1z, hlp'⟩
            · exact hk
            · simp [hlp'] at hc3; simpa using hc3
          have hd1p : 1 ≤ d1 := by
            rcases hd1c with hk | hk
            · rw [hhk2] at hk; exact absurd hk (by simp)
            · exact hk
          by_cases hlp : lastPair = true
          · rw [if_pos hlp] at h
            refine ⟨[⟨anchor + d1, prefLenOf k qk (anchor + d1), vs2⟩],
              by simp [← KVOut.ok.inj h], ?_, by simp⟩
            intro r hr
            simp at hr
            subst hr
            exact ⟨hlb2, by dsimp only; omega, by dsimp only; omega, rfl⟩
          · rw [if_neg hlp] at h
            have hlpf : lastPair = false := by simpa using hlp
            rw [hlpf] at htail
            simp only [Bool.false_or] at htail
            obtain ⟨nl2, hout, hfacts, hchain, hgt⟩ :=
              scanMask_sound_false k qk lb rb maxK anchor hmaxU fuel b6 (anchor + d1) F _ out
                htail (by omega) hf2 h
            refine ⟨⟨anchor + d1, prefLenOf k qk (anchor + d1), vs2⟩ :: nl2,
              by simp [hout], ?_, ?_⟩
            · intro r hr
              simp only [List.mem_cons] at hr
              rcases hr with hr | hr
              · subst hr; exact ⟨hlb2, by dsimp only; omega, by dsimp only; omega, rfl⟩
              · exact hfacts r hr
            · rw [List.chain'_cons']
              refine ⟨?_, hchain⟩
              intro y hy
              have := hgt y (List.mem_of_mem_head? hy)
              simp
              omega
        case neg =>
          rw [if_neg hF] at h
          by_cases hlp : lastPair = true
          · rw [if_pos hlp] at h
            exact ⟨[], by simp [← KVOut.ok.inj h], by simp, by simp⟩
          · rw [if_neg hlp] at h
            have hlpf : lastPair = false := by simpa using hlp
            rw [hlpf] at htail
            simp only [Bool.false_or] at htail
            obtain ⟨nl2, hout, hfacts, hchain, hgt⟩ :=
              scanMask_sound_false k qk lb rb maxK anchor hmaxU fuel b6 (anchor + d1) F _ out
                htail (by omega) hf2 h
            exact ⟨nl2, by simp [hout], hfacts, hchain⟩

/-- Soundness of the per-mask loop: a successful search decomposes into one
result segment per mask, each in-scope and strictly increasing. -/
theorem searchMasks_sound (k qk lb rb maxK : Nat) (hmaxU : maxK < U64) (file : List Nat) :
    ∀ idxs acc out,
      (∀ idx ∈ idxs, ∀ i,
        bsearchAnchor idx lb (idx.length + 1) 0 (idx.length - 2) = some i →
        wfTail maxK ((file.drop (idx.getD (i + 1) 0)).length + 1)
          (idx.getD i 0) true 0 (file.drop (idx.getD (i + 1) 0)) = true) →
      searchMasks k qk lb rb file idxs acc = .ok out →
      ∃ segs : List (List KVSearchResult),
        out = acc ++ segs.flatten ∧ segs.length = idxs.length ∧
        ∀ seg ∈ segs,
          (∀ r ∈ seg, lb ≤ r.kmer ∧ r.kmer ≤ rb ∧ r.kmer ≤ maxK ∧
            r.prefLen = prefLenOf k qk r.kmer) ∧
          List.Chain' (fun a b => a.kmer < b.kmer) seg := by
  intro idxs
  induction idxs with
  | nil =>
    intro acc out hwf h
    simp only [searchMasks] at h
    exact ⟨[], by simp [← KVOut.ok.inj h], by simp, by simp⟩
  | cons idx rest ih =>
    intro acc out hwf h
    unfold searchMasks at h
    cases hbs : bsearchAnchor idx lb (idx.length + 1) 0 (idx.length - 2) with
    | none => rw [hbs] at h; exact absurd h (by simp)
    | some i =>
    rw [hbs] at h
    simp only [] at h
    have hwf1 := hwf idx (by simp) i hbs
    cases hsc : scanMask k qk lb rb (idx.getD i 0)
        ((file.drop (idx.getD (i + 1) 0)).length + 1)
        (file.drop (idx.getD (i + 1) 0)) true 0 false acc with
    | ok acc2 =>
      rw [hsc] at h
      obtain ⟨nl, hacc2, hfacts, hchain⟩ :=
        scanMask_sound_true k qk lb rb maxK (idx.getD i 0) hmaxU
          ((file.drop (idx.getD (i + 1) 0)).length + 1)
          (file.drop (idx.getD (i + 1) 0)) acc acc2 hwf1 hsc
      obtain ⟨segs, hout, hlen, hsegs⟩ :=
        ih acc2 out (fun idx2 hidx2 => hwf idx2 (by simp [hidx2])) h
      refine ⟨nl :: segs, ?_, by simp [hlen], ?_⟩
      · rw [hout, hacc2]
        simp
      · intro seg hseg
        rcases List.mem_cons.mp hseg with hseg | hseg
        · subst hseg; exact ⟨hfacts, hchain⟩
        · exact hsegs seg hseg
    | invalidKmer => rw [hsc] at h; exact absurd h (by simp)
    | ioErr => rw [hsc] at h; exact absurd h (by simp)
    | broken => rw [hsc] at h; exact absurd h (by simp)
    | crash => rw [hsc] at h; exact absurd h (by simp)

/-- C1 (amended).  For a well-formed searcher with `k ≤ 32` and
`1 ≤ m ≤ k`, every result of `Searcher.Search(kmer, m)` lies in the scope
`[kmer & ^mask, kmer | mask]` with `mask = 2^(2(k-m)) - 1` and its
`LenPrefix` satisfies `LenPrefix + 32 = leading_zeros(kmer ^ matched)/2 + k`;
the results split into one segment per mask with strictly increasing
k-mers, so each matched k-mer appears at most once per mask — but may
recur across masks (`kv_search_dup_kmer_cex`). -/
theorem kv_search_scope_prefLen_unique (scr : KVSearcher) (kmer m : Nat)
    (out : List KVSearchResult) (hk : scr.k ≤ 32) (hm1 : 1 ≤ m) (hmk : m ≤ scr.k)
    (hwf : wfSearcher scr (leftBoundOf scr.k kmer m))
    (h : kvSearch scr kmer m = .ok out) :
    (∀ r ∈ out,
      kmer &&& (U64 - 1 - (2 ^ (2 * (scr.k - m)) - 1)) ≤ r.kmer ∧
      r.kmer ≤ kmer ||| (2 ^ (2 * (scr.k - m)) - 1) ∧
      r.prefLen + 32 = lz64 (kmer ^^^ r.kmer) / 2 + scr.k) ∧
    ∃ segs : List (List KVSearchResult), out = segs.flatten ∧
      segs.length = scr.indexes.length ∧
      ∀ seg ∈ segs, List.Chain' (fun a b => a.kmer < b.kmer) seg := by
  unfold kvSearch at h
  by_cases hinv : goMaxKmer scr.k < kmer
  · rw [if_pos hinv] at h; exact absurd h (by simp)
  rw [if_neg hinv] at h
  simp only [] at h
  have hm1f : (decide (m < 1) || decide (scr.k < m)) = false := by
    simp only [Bool.or_eq_false_iff, decide_eq_false_iff_not]
    omega
  rw [hm1f] at h
  simp only [Bool.false_eq_true, if_false] at h
  have hkU : kmer < U64 := lt_of_le_of_lt (by omega) (goMaxKmer_lt_U64 scr.k hk)
  obtain ⟨segs, hout, hlen, hsegs⟩ :=
    searchMasks_sound scr.k kmer (leftBoundOf scr.k kmer m) (rightBoundOf scr.k kmer m)
      (goMaxKmer scr.k) (goMaxKmer_lt_U64 scr.k hk) scr.file scr.indexes [] out hwf h
  simp only [List.nil_append] at hout
  constructor
  · intro r hr
    rw [hout] at hr
    obtain ⟨seg, hsegmem, hrseg⟩ := List.mem_flatten.mp hr
    obtain ⟨hlb, hrb, hmaxr, hpl⟩ := (hsegs seg hsegmem).1 r hrseg
    refine ⟨?_, ?_, ?_⟩
    · rw [← leftBoundOf_eq scr.k kmer m hmk hkU]
      exact hlb
    · rw [← rightBoundOf_eq scr.k kmer m hmk]
      exact hrb
    · rw [hpl]
      exact prefLen_spec scr.k kmer r.kmer (goMaxKmer scr.k) hk
        (goMaxKmer_eq scr.k hk) (by omega) hmaxr
  · exact ⟨segs, hout, hlen, fun seg hs => (hsegs seg hs).2⟩

/-- Counterexample for C1 as stated: a well-formed searcher with two masks
whose sections both contain the k-mer `5` returns that k-mer twice, so a
matched k-mer can appear more than once in the results (once per mask). -/
theorem kv_search_dup_kmer_cex :
    kvSearch ⟨3, [[5, 0, 5, 0], [5, 14, 5, 14]],
        [192, 5, 0, 0, 1, 0, 0, 0, 0, 0, 0, 0, 0, 7,
         192, 5, 0, 0, 1, 0, 0, 0, 0, 0, 0, 0, 0, 7]⟩ 5 3 =
      .ok [⟨5, 3, [7]⟩, ⟨5, 3, [7]⟩] ∧
    wfSearcher ⟨3, [[5, 0, 5, 0], [5, 14, 5, 14]],
        [192, 5, 0, 0, 1, 0, 0, 0, 0, 0, 0, 0, 0, 7,
         192, 5, 0, 0, 1, 0, 0, 0, 0, 0, 0, 0, 0, 7]⟩ (leftBoundOf 3 5 3) ∧
    ¬ List.Pairwise (fun a b => a.kmer ≠ b.kmer)
        [(⟨5, 3, [7]⟩ : KVSearchResult), ⟨5, 3, [7]⟩] := by
  refine ⟨by decide, ?_, by decide⟩
  intro idx hidx i hi
  simp only [List.mem_cons, List.not_mem_nil, or_false] at hidx
  rcases hidx with rfl | rfl
  · have h0 : bsearchAnchor [5, 0, 5, 0] (leftBoundOf 3 5 3) 5 0 2 = some 0 := by decide
    cases Option.some.inj (h0.symm.trans hi)
    decide
  · have h0 : bsearchAnchor [5, 14, 5, 14] (leftBoundOf 3 5 3) 5 0 2 = some 0 := by decide
    cases Option.some.inj (h0.symm.trans hi)
    decide

/-- Witness for C1 at a concrete searcher, query `9`, `m = 2`. -/
theorem kv_search_scope_prefLen_unique_witness :
    (∀ r ∈ [(⟨9, 3, [9]⟩ : KVSearchResult)],
      9 &&& (U64 - 1 - (2 ^ (2 * (3 - 2)) - 1)) ≤ r.kmer ∧
      r.kmer ≤ 9 ||| (2 ^ (2 * (3 - 2)) - 1) ∧
      r.prefLen + 32 = lz64 (9 ^^^ r.kmer) / 2 + 3) ∧
    ∃ segs : List (List KVSearchResult),
      [(⟨9, 3, [9]⟩ : KVSearchResult)] = segs.flatten ∧ segs.length = 1 ∧
      ∀ seg ∈ segs, List.Chain' (fun a b => a.kmer < b.kmer) seg :=
  kv_search_scope_prefLen_unique
    ⟨3, [[0, 0, 0, 0]],
      [128, 0, 9, 0, 1, 1, 0, 0, 0, 0, 0, 0, 0, 7, 0, 0, 0, 0, 0, 0, 0, 9]⟩ 9 2
    [⟨9, 3, [9]⟩] (by norm_num) (by norm_num) (by norm_num)
    (by
      intro idx hidx i hi
      simp only [List.mem_cons, List.not_mem_nil, or_false] at hidx
      subst hidx
      have h0 : bsearchAnchor [0, 0, 0, 0] (leftBoundOf 3 9 2) 5 0 2 = some 0 := by decide
      cases Option.some.inj (h0.symm.trans hi)
      decide)
    (by decide)

/-- C10.  For a valid query, an out-of-range minimum-prefix argument
(`m = 0` or `m > k`) makes `Searcher.Search` behave exactly as `m = k`,
and then (for a well-formed searcher) every result matches the query
k-mer exactly. -/
theorem kv_search_m_out_of_range (scr : KVSearcher) (kmer m : Nat)
    (out : List KVSearchResult) (hk : scr.k ≤ 32) (hkm : kmer ≤ goMaxKmer scr.k)
    (hm : m = 0 ∨ scr.k < m) (hwf : wfSearcher scr kmer)
    (h : kvSearch scr kmer m = .ok out) :
    kvSearch scr kmer scr.k = .ok out ∧ ∀ r ∈ out, r.kmer = kmer := by
  have hnlt : ¬ goMaxKmer scr.k < kmer := by omega
  have e1 : (if (decide (m < 1) || decide (scr.k < m)) = true then scr.k else m) = scr.k := by
    split
    · rfl
    · rename_i hcond
      simp only [Bool.or_eq_true, decide_eq_true_eq, not_or] at hcond
      omega
  have e2 : (if (decide (scr.k < 1) || decide (scr.k < scr.k)) = true
      then scr.k else scr.k) = scr.k := by
    split <;> rfl
  have hlbk : leftBoundOf scr.k kmer scr.k = kmer := by
    unfold leftBoundOf
    rw [if_neg (lt_irrefl _)]
  have hrbk : rightBoundOf scr.k kmer scr.k = kmer := by
    unfold rightBoundOf
    rw [if_neg (lt_irrefl _)]
  unfold kvSearch at h ⊢
  rw [if_neg hnlt] at h ⊢
  simp only [] at h ⊢
  rw [e1] at h
  rw [e2]
  refine ⟨h, ?_⟩
  rw [hlbk, hrbk] at h
  obtain ⟨segs, hout, hlen, hsegs⟩ :=
    searchMasks_sound scr.k kmer kmer kmer (goMaxKmer scr.k) (goMaxKmer_lt_U64 scr.k hk)
      scr.file scr.indexes [] out hwf h
  intro r hr
  rw [hout] at hr
  simp only [List.nil_append] at hr
  obtain ⟨seg, hsegmem, hrseg⟩ := List.mem_flatten.mp hr
  obtain ⟨hlb, hrb, _, _⟩ := (hsegs seg hsegmem).1 r hrseg
  omega

/-- Witness for C10 at a concrete searcher, query `9`, `m = 5 > k = 3`. -/
theorem kv_search_m_out_of_range_witness :
    kvSearch ⟨3, [[9, 0, 9, 0]], [192, 9, 0, 0, 1, 0, 0, 0, 0, 0, 0, 0, 0, 4]⟩ 9 3 =
      .ok [⟨9, 3, [4]⟩] ∧
    ∀ r ∈ [(⟨9, 3, [4]⟩ : KVSearchResult)], r.kmer = 9 :=
  kv_search_m_out_of_range ⟨3, [[9, 0, 9, 0]], [192, 9, 0, 0, 1, 0, 0, 0, 0, 0, 0, 0, 0, 4]⟩
    9 5 [⟨9, 3, [4]⟩] (by norm_num) (by decide) (Or.inr (by norm_num))
    (by
      intro idx hidx i hi
      simp only [List.mem_cons, List.not_mem_nil, or_false] at hidx
      subst hidx
      have h0 : bsearchAnchor [9, 0, 9, 0] 9 5 0 2 = some 0 := by decide
      cases Option.some.inj (h0.symm.trans hi)
      decide)
    (by decide)

end LexicMap
